import Mathlib

/-!
Verification of the sentinel-based singly linked list container
`SingleLinkedList<Type>` (src/single-linked-list/single-linked-list.h).

The C++ code manipulates raw pointers, so the embedding makes the heap
explicit: addresses are natural numbers, a pointer is `Option Nat`
(`none` models `nullptr`), and a heap maps addresses to allocated nodes.
The list object's sentinel member `head_` is itself placed in the heap so
that `before_begin` (which returns a pointer to the sentinel) and all
node writes are treated uniformly.  `size_t` counters are modelled as
`Nat` (the count of live single allocations can never reach `2^64`, so
wrap-around of the counter is unreachable in any real execution).
Dereferencing a null or dangling pointer is undefined behaviour in C++;
operations return `Option`, with `none` for such executions.
-/

namespace SLL

/-- A pointer: either null or the address of a heap cell. -/
abbrev Ptr : Type := Option Nat

/-- One heap node, mirroring `SingleLinkedList<Type>::Node`:
a stored value and the raw pointer `next_node`. -/
structure Node (α : Type) where
  value : α
  next_node : Ptr
deriving DecidableEq

/-- The heap: a partial map from addresses to nodes, together with the
next address the allocator will hand out.  All addresses at or above
`next_fresh` are unallocated in a well-formed heap. -/
structure Heap (α : Type) where
  mem : Nat → Option (Node α)
  next_fresh : Nat

/-- Heap well-formedness: no cell at or above the allocation watermark. -/
def Heap.WF {α : Type} (h : Heap α) : Prop :=
  ∀ a, h.next_fresh ≤ a → h.mem a = none

/-- The empty heap. -/
def Heap.empty (α : Type) : Heap α :=
  ⟨fun _ => none, 0⟩

/-- Overwrite the cell at address `a` (models a store through a pointer). -/
def Heap.write {α : Type} (h : Heap α) (a : Nat) (nd : Node α) : Heap α :=
  ⟨fun x => if x = a then some nd else h.mem x, h.next_fresh⟩

/-- Deallocate the cell at address `a` (models `delete`). -/
def Heap.free {α : Type} (h : Heap α) (a : Nat) : Heap α :=
  ⟨fun x => if x = a then none else h.mem x, h.next_fresh⟩

/-- Allocate a fresh cell holding `nd` (models `new Node(...)`); returns
the new address and the updated heap. -/
def Heap.alloc {α : Type} (h : Heap α) (nd : Node α) : Nat × Heap α :=
  (h.next_fresh,
   ⟨fun x => if x = h.next_fresh then some nd else h.mem x, h.next_fresh + 1⟩)

/-- `BasicIterator`: a non-owning pointer to a node.  The C++ template has
a mutable and a read-only instantiation that share the single data member
`Node* node_` (default `nullptr`) and compare by pointer equality across
both flavours; the embedding therefore uses one type for both. -/
structure BasicIterator where
  node_ : Ptr := none
deriving DecidableEq

/-- A default-constructed iterator: `node_` is `nullptr`. -/
def defaultIterator : BasicIterator := ⟨none⟩

/-- `BasicIterator::operator==`: compares the stored node pointers. -/
def iterEq (a b : BasicIterator) : Bool :=
  a.node_ == b.node_

/-- `BasicIterator::operator++`: follow the node's `next_node` link.
Advancing a null or dangling iterator dereferences it, hence `Option`. -/
def iterInc {α : Type} (h : Heap α) (it : BasicIterator) : Option BasicIterator :=
  match it.node_ with
  | none => none
  | some a =>
    match h.mem a with
    | none => none
    | some nd => some ⟨nd.next_node⟩

/-- `BasicIterator::operator*`: read the value at the referenced node. -/
def iterDeref {α : Type} (h : Heap α) (it : BasicIterator) : Option α :=
  match it.node_ with
  | none => none
  | some a => (h.mem a).map Node.value

/-- The list object: the address of its sentinel `head_` node and its
`size_` counter. -/
structure SingleLinkedList where
  head_ : Nat
  size_ : Nat
deriving DecidableEq

/-- Default construction: `head_` is a default-constructed `Node()` (value
default-initialised, `next_node = nullptr`) and `size_ = 0`.  The sentinel
is allocated in the modelled heap. -/
def mkDefault {α : Type} [Inhabited α] (h : Heap α) : Heap α × SingleLinkedList :=
  let p := h.alloc ⟨default, none⟩
  (p.2, ⟨p.1, 0⟩)

/-- `before_begin()`: an iterator referencing the sentinel `&head_`. -/
def before_begin (L : SingleLinkedList) : BasicIterator :=
  ⟨some L.head_⟩

/-- `cbefore_begin()`: same pointer as `before_begin`. -/
def cbefore_begin (L : SingleLinkedList) : BasicIterator :=
  ⟨some L.head_⟩

/-- `begin()`: `Iterator(head_.next_node)`; reads the sentinel. -/
def beginIt {α : Type} (h : Heap α) (L : SingleLinkedList) : Option BasicIterator :=
  (h.mem L.head_).map fun snd => ⟨snd.next_node⟩

/-- `cbegin()`: same as `begin()`. -/
def cbegin {α : Type} (h : Heap α) (L : SingleLinkedList) : Option BasicIterator :=
  (h.mem L.head_).map fun snd => ⟨snd.next_node⟩

/-- `end()`: `Iterator(nullptr)`. -/
def endIt (_L : SingleLinkedList) : BasicIterator :=
  ⟨none⟩

/-- `cend()`: `ConstIterator(nullptr)`. -/
def cend (_L : SingleLinkedList) : BasicIterator :=
  ⟨none⟩

/-- `GetSize()`: returns the `size_` counter. -/
def GetSize (L : SingleLinkedList) : Nat :=
  L.size_

/-- `IsEmpty()`: `size_ <= 0` on the unsigned counter. -/
def IsEmpty (L : SingleLinkedList) : Bool :=
  decide (L.size_ ≤ 0)

/-- `PushFront(value)`:
`head_.next_node = new Node(value, head_.next_node); size_++;`. -/
def PushFront {α : Type} (h : Heap α) (L : SingleLinkedList) (value : α) :
    Option (Heap α × SingleLinkedList) :=
  match h.mem L.head_ with
  | none => none
  | some snd =>
    let p := h.alloc ⟨value, snd.next_node⟩
    some (p.2.write L.head_ ⟨snd.value, some p.1⟩, ⟨L.head_, L.size_ + 1⟩)

/-- `InsertAfter(pos, value)`: reads `pos.node_->next_node`, allocates
`new Node(value, pos_node->next_node)`, links it after `pos`, increments
`size_`, and returns an iterator to the new node. -/
def InsertAfter {α : Type} (h : Heap α) (L : SingleLinkedList)
    (pos : BasicIterator) (value : α) :
    Option (Heap α × SingleLinkedList × BasicIterator) :=
  match pos.node_ with
  | none => none
  | some p =>
    match h.mem p with
    | none => none
    | some pnd =>
      let q := h.alloc ⟨value, pnd.next_node⟩
      some (q.2.write p ⟨pnd.value, some q.1⟩,
            ⟨L.head_, L.size_ + 1⟩, ⟨some q.1⟩)

/-- `PopFront()`:
`auto next = head_.next_node; head_.next_node = next->next_node; --size_;
delete next;`.  Reads through `next`, so it fails on an empty chain. -/
def PopFront {α : Type} (h : Heap α) (L : SingleLinkedList) :
    Option (Heap α × SingleLinkedList) :=
  match h.mem L.head_ with
  | none => none
  | some snd =>
    match snd.next_node with
    | none => none
    | some d =>
      match h.mem d with
      | none => none
      | some dnd =>
        some ((h.write L.head_ ⟨snd.value, dnd.next_node⟩).free d,
              ⟨L.head_, L.size_ - 1⟩)

/-- `EraseAfter(pos)`: unlinks and deletes the node after `pos`, then
returns `Iterator(pos.node_->next_node)` read from the updated heap. -/
def EraseAfter {α : Type} (h : Heap α) (L : SingleLinkedList)
    (pos : BasicIterator) :
    Option (Heap α × SingleLinkedList × BasicIterator) :=
  match pos.node_ with
  | none => none
  | some p =>
    match h.mem p with
    | none => none
    | some pnd =>
      match pnd.next_node with
      | none => none
      | some d =>
        match h.mem d with
        | none => none
        | some dnd =>
          let h2 := (h.write p ⟨pnd.value, dnd.next_node⟩).free d
          match h2.mem p with
          | none => none
          | some pnd2 => some (h2, ⟨L.head_, L.size_ - 1⟩, ⟨pnd2.next_node⟩)

/-- One iteration budget of `Clear()`'s loop
`while (size_ > 0) { ... delete head_.next_node; ... size_--; }`;
the fuel argument is the loop count `size_`, which the loop decrements
once per iteration. -/
def clearLoop {α : Type} (h : Heap α) (headAddr : Nat) : Nat → Option (Heap α)
  | 0 => some h
  | n + 1 =>
    match h.mem headAddr with
    | none => none
    | some snd =>
      match snd.next_node with
      | none => none
      | some d =>
        match h.mem d with
        | none => none
        | some dnd =>
          clearLoop ((h.free d).write headAddr ⟨snd.value, dnd.next_node⟩)
            headAddr n

/-- `Clear()`: runs the deletion loop `size_` times, ending with
`size_ = 0`. -/
def Clear {α : Type} (h : Heap α) (L : SingleLinkedList) :
    Option (Heap α × SingleLinkedList) :=
  (clearLoop h L.head_ L.size_).map fun h2 => (h2, ⟨L.head_, 0⟩)

/-- `swap(other)`: `std::swap(head_.next_node, other.head_.next_node);
std::swap(size_, other.size_);` — exchanges the sentinels' next pointers
and the two size counters. -/
def swapLists {α : Type} (h : Heap α) (L other : SingleLinkedList) :
    Option (Heap α × SingleLinkedList × SingleLinkedList) :=
  match h.mem L.head_, h.mem other.head_ with
  | some snd1, some snd2 =>
    some ((h.write L.head_ ⟨snd1.value, snd2.next_node⟩).write other.head_
            ⟨snd2.value, snd1.next_node⟩,
          ⟨L.head_, other.size_⟩, ⟨other.head_, L.size_⟩)
  | _, _ => none

/-- Traversal of a pointer chain until `nullptr`, with a fuel bound on the
number of node hops (the C++ loops terminate only on null-terminated
chains; `none` models divergence or a dangling read). -/
def readList {α : Type} (h : Heap α) : Nat → Ptr → Option (List α)
  | _, none => some []
  | 0, some _ => none
  | fuel + 1, some a =>
    match h.mem a with
    | none => none
    | some nd => (readList h fuel nd.next_node).map fun vs => nd.value :: vs

/-- The loop body of `InitFromForwardRange`: `PushFront` each value of the
given list in order (the source iterates the buffered values in reverse,
so this receives the reversed buffer). -/
def pushFrontAll {α : Type} (h : Heap α) (L : SingleLinkedList) :
    List α → Option (Heap α × SingleLinkedList)
  | [] => some (h, L)
  | v :: rest =>
    match PushFront h L v with
    | none => none
    | some p => pushFrontAll p.1 p.2 rest

/-- `InitFromForwardRange(begin, end)` applied to the materialised value
sequence `vals` of the range: buffers the values, then pushes them to the
front in reverse order. -/
def InitFromForwardRange {α : Type} (h : Heap α) (L : SingleLinkedList)
    (vals : List α) : Option (Heap α × SingleLinkedList) :=
  pushFrontAll h L vals.reverse

/-- `SingleLinkedList(std::initializer_list<Type> values)`: default-build
the object, then `InitFromForwardRange(values.begin(), values.end())`. -/
def ofValues {α : Type} [Inhabited α] (h : Heap α) (vals : List α) :
    Option (Heap α × SingleLinkedList) :=
  let p := mkDefault h
  InitFromForwardRange p.1 p.2 vals

/-- Copy construction `SingleLinkedList(const SingleLinkedList& other)`:
default-build the object, traverse `other.begin() .. other.end()` into a
buffer, then `InitFromForwardRange`.  `fuel` bounds the traversal of
`other`; any `fuel ≥` the chain length of a well-formed `other` works. -/
def copyCtor {α : Type} [Inhabited α] (h : Heap α) (other : SingleLinkedList)
    (fuel : Nat) : Option (Heap α × SingleLinkedList) :=
  let p := mkDefault h
  match p.1.mem other.head_ with
  | none => none
  | some osnd =>
    match readList p.1 fuel osnd.next_node with
    | none => none
    | some vals => InitFromForwardRange p.1 p.2 vals

/-- The destructor `~SingleLinkedList()`: `Clear()`, after which the
sentinel member's storage is released. -/
def destroy {α : Type} (h : Heap α) (L : SingleLinkedList) : Option (Heap α) :=
  (Clear h L).map fun p => p.1.free p.2.head_

/-- Copy assignment `operator=`: `if (this != &rhs) { auto temp(rhs);
swap(temp); }` — object identity is the address of the embedded sentinel;
the temporary is destroyed when it leaves scope. -/
def operatorAssign {α : Type} [Inhabited α] (h : Heap α)
    (L rhs : SingleLinkedList) (fuel : Nat) :
    Option (Heap α × SingleLinkedList) :=
  if L.head_ = rhs.head_ then some (h, L)
  else
    match copyCtor h rhs fuel with
    | none => none
    | some p =>
      match swapLists p.1 L p.2 with
      | none => none
      | some q => (destroy q.1 q.2.2).map fun h3 => (h3, q.2.1)

/-- The loop of `std::equal(f1, l1, f2, l2)` over two node chains:
runs while both ranges are non-empty, stops false at the first value
mismatch, and is true iff both ranges end together. -/
def eqRange {α : Type} [DecidableEq α] (h : Heap α) :
    Nat → Ptr → Ptr → Option Bool
  | _, none, none => some true
  | _, none, some _ => some false
  | _, some _, none => some false
  | 0, some _, some _ => none
  | fuel + 1, some a, some b =>
    match h.mem a, h.mem b with
    | some nda, some ndb =>
      if nda.value = ndb.value then eqRange h fuel nda.next_node ndb.next_node
      else some false
    | _, _ => none

/-- `operator==`: `std::equal(lhs.begin(), lhs.end(), rhs.begin(),
rhs.end())`. -/
def operatorEq {α : Type} [DecidableEq α] (h : Heap α)
    (lhs rhs : SingleLinkedList) (fuel : Nat) : Option Bool :=
  match h.mem lhs.head_, h.mem rhs.head_ with
  | some l, some r => eqRange h fuel l.next_node r.next_node
  | _, _ => none

/-- `operator!=`: `!(lhs == rhs)`. -/
def operatorNe {α : Type} [DecidableEq α] (h : Heap α)
    (lhs rhs : SingleLinkedList) (fuel : Nat) : Option Bool :=
  (operatorEq h lhs rhs fuel).map fun b => !b

/-- The loop of `std::lexicographical_compare(f1, l1, f2, l2)` over two
node chains: while both ranges are non-empty it returns true on
`*f1 < *f2` and false on `*f2 < *f1`; once a range ends it returns
`f1 == l1 && f2 != l2`. -/
def lexCompare {α : Type} [LinearOrder α] (h : Heap α) :
    Nat → Ptr → Ptr → Option Bool
  | _, none, none => some false
  | _, none, some _ => some true
  | _, some _, none => some false
  | 0, some _, some _ => none
  | fuel + 1, some a, some b =>
    match h.mem a, h.mem b with
    | some nda, some ndb =>
      if nda.value < ndb.value then some true
      else if ndb.value < nda.value then some false
      else lexCompare h fuel nda.next_node ndb.next_node
    | _, _ => none

/-- `operator<`: `std::lexicographical_compare(lhs.begin(), lhs.end(),
rhs.begin(), rhs.end())`. -/
def operatorLt {α : Type} [LinearOrder α] (h : Heap α)
    (lhs rhs : SingleLinkedList) (fuel : Nat) : Option Bool :=
  match h.mem lhs.head_, h.mem rhs.head_ with
  | some l, some r => lexCompare h fuel l.next_node r.next_node
  | _, _ => none

/-- `operator<=`: `!(rhs < lhs)`. -/
def operatorLe {α : Type} [LinearOrder α] (h : Heap α)
    (lhs rhs : SingleLinkedList) (fuel : Nat) : Option Bool :=
  (operatorLt h rhs lhs fuel).map fun b => !b

/-- `operator>`: `rhs < lhs`. -/
def operatorGt {α : Type} [LinearOrder α] (h : Heap α)
    (lhs rhs : SingleLinkedList) (fuel : Nat) : Option Bool :=
  operatorLt h rhs lhs fuel

/-- `operator>=`: `!(lhs < rhs)`. -/
def operatorGe {α : Type} [LinearOrder α] (h : Heap α)
    (lhs rhs : SingleLinkedList) (fuel : Nat) : Option Bool :=
  (operatorLt h lhs rhs fuel).map fun b => !b

/-- `ChainSeg h p as vs q`: starting at pointer `p`, the heap `h` holds a
chain of nodes at the distinct-step addresses `as` carrying the values
`vs`, whose last link is the pointer `q`.  With `q = none` this is a
complete null-terminated chain; finiteness of `as` makes such a chain
acyclic by construction. -/
inductive ChainSeg {α : Type} (h : Heap α) : Ptr → List Nat → List α → Ptr → Prop
  | nil (p : Ptr) : ChainSeg h p [] [] p
  | cons (a : Nat) (nd : Node α) (as : List Nat) (vs : List α) (q : Ptr) :
      h.mem a = some nd → ChainSeg h nd.next_node as vs q →
      ChainSeg h (some a) (a :: as) (nd.value :: vs) q

/-- The representation invariant, with the chain's address list exposed:
the heap is well formed, the sentinel is allocated, the sentinel's next
pointer starts a null-terminated chain through addresses `as` holding the
values `vs`, and the `size_` counter equals the number of those nodes. -/
def ModelsA {α : Type} (h : Heap α) (L : SingleLinkedList)
    (as : List Nat) (vs : List α) : Prop :=
  h.WF ∧ ∃ snd, h.mem L.head_ = some snd ∧
    ChainSeg h snd.next_node as vs none ∧ L.size_ = vs.length

/-- The list invariant of the specification: some address list and value
list satisfy `ModelsA`. -/
def Inv {α : Type} (h : Heap α) (L : SingleLinkedList) : Prop :=
  ∃ as vs, ModelsA h L as vs

/-- A concrete heap holding two disjoint lists, used to instantiate the
theorems: list A with sentinel at address 0 and chain
1 ↦ 10, 2 ↦ 20, 3 ↦ 30, and list B with sentinel at address 4 and chain
5 ↦ 10, 6 ↦ 25. -/
def exHeap : Heap Int :=
  ⟨fun a =>
    if a = 0 then some ⟨0, some 1⟩
    else if a = 1 then some ⟨10, some 2⟩
    else if a = 2 then some ⟨20, some 3⟩
    else if a = 3 then some ⟨30, none⟩
    else if a = 4 then some ⟨0, some 5⟩
    else if a = 5 then some ⟨10, some 6⟩
    else if a = 6 then some ⟨25, none⟩
    else none, 7⟩

/-- The list object of the A chain of `exHeap`. -/
def exA : SingleLinkedList := ⟨0, 3⟩

/-- The list object of the B chain of `exHeap`. -/
def exB : SingleLinkedList := ⟨4, 2⟩

/-! ### Heap lemmas -/

theorem mem_write_self {α : Type} (h : Heap α) (a : Nat) (nd : Node α) :
    (h.write a nd).mem a = some nd := by
  simp [Heap.write]

theorem mem_write_ne {α : Type} (h : Heap α) {a b : Nat} (nd : Node α)
    (hne : b ≠ a) : (h.write a nd).mem b = h.mem b := by
  simp [Heap.write, hne]

theorem mem_free_self {α : Type} (h : Heap α) (a : Nat) :
    (h.free a).mem a = none := by
  simp [Heap.free]

theorem mem_free_ne {α : Type} (h : Heap α) {a b : Nat}
    (hne : b ≠ a) : (h.free a).mem b = h.mem b := by
  simp [Heap.free, hne]

theorem mem_alloc_self {α : Type} (h : Heap α) (nd : Node α) :
    (h.alloc nd).2.mem h.next_fresh = some nd := by
  simp [Heap.alloc]

theorem mem_alloc_ne {α : Type} (h : Heap α) {b : Nat} (nd : Node α)
    (hne : b ≠ h.next_fresh) : (h.alloc nd).2.mem b = h.mem b := by
  simp [Heap.alloc, hne]

theorem fresh_alloc {α : Type} (h : Heap α) (nd : Node α) :
    (h.alloc nd).2.next_fresh = h.next_fresh + 1 := rfl

theorem fresh_write {α : Type} (h : Heap α) (a : Nat) (nd : Node α) :
    (h.write a nd).next_fresh = h.next_fresh := rfl

theorem fresh_free {α : Type} (h : Heap α) (a : Nat) :
    (h.free a).next_fresh = h.next_fresh := rfl

theorem lt_fresh_of_mem {α : Type} {h : Heap α} {a : Nat} {nd : Node α}
    (hwf : h.WF) (hm : h.mem a = some nd) : a < h.next_fresh := by
  by_contra hlt
  rw [hwf a (by omega)] at hm
  exact Option.noConfusion hm

theorem wf_write {α : Type} {h : Heap α} {a : Nat} (nd : Node α)
    (hwf : h.WF) (ha : a < h.next_fresh) : (h.write a nd).WF := by
  intro x hx
  have hxa : x ≠ a := by
    simp only [Heap.write] at hx; omega
  rw [mem_write_ne h nd hxa]
  exact hwf x hx

theorem wf_free {α : Type} {h : Heap α} (a : Nat)
    (hwf : h.WF) : (h.free a).WF := by
  intro x hx
  simp only [Heap.free] at hx ⊢
  rcases eq_or_ne x a with hxa | hxa
  · simp [hxa]
  · simp [hxa]; exact hwf x hx

theorem wf_alloc {α : Type} {h : Heap α} (nd : Node α)
    (hwf : h.WF) : (h.alloc nd).2.WF := by
  intro x hx
  simp only [Heap.alloc] at hx ⊢
  have hx1 : x ≠ h.next_fresh := by omega
  simp [hx1]
  exact hwf x (by omega)

/-! ### Chain lemmas -/

theorem chainSeg_length {α : Type} {h : Heap α} {p q : Ptr}
    {as : List Nat} {vs : List α}
    (hc : ChainSeg h p as vs q) : as.length = vs.length := by
  induction hc with
  | nil => rfl
  | cons a nd as vs q hm hrest ih => simp [ih]

theorem chainSeg_frame {α : Type} {h h2 : Heap α} {p q : Ptr}
    {as : List Nat} {vs : List α}
    (hagree : ∀ a ∈ as, h2.mem a = h.mem a)
    (hc : ChainSeg h p as vs q) : ChainSeg h2 p as vs q := by
  induction hc with
  | nil => exact .nil _
  | cons a nd as vs q hm hrest ih =>
    exact .cons a nd as vs q
      (by rw [hagree a (by simp)]; exact hm)
      (ih fun x hx => hagree x (by simp [hx]))

theorem chainSeg_append {α : Type} {h : Heap α} {p q r : Ptr}
    {as1 as2 : List Nat} {vs1 vs2 : List α}
    (h1 : ChainSeg h p as1 vs1 q) (h2 : ChainSeg h q as2 vs2 r) :
    ChainSeg h p (as1 ++ as2) (vs1 ++ vs2) r := by
  induction h1 with
  | nil => simpa using h2
  | cons a nd as vs q hm hrest ih =>
    exact .cons a nd _ _ r hm (ih h2)

theorem chainSeg_split {α : Type} {h : Heap α} {p r : Ptr}
    {as1 as2 : List Nat} {vs : List α}
    (hc : ChainSeg h p (as1 ++ as2) vs r) :
    ∃ vs1 vs2 q, vs = vs1 ++ vs2 ∧ vs1.length = as1.length ∧
      ChainSeg h p as1 vs1 q ∧ ChainSeg h q as2 vs2 r := by
  induction as1 generalizing p vs with
  | nil =>
    exact ⟨[], vs, p, rfl, rfl, .nil p, by simpa using hc⟩
  | cons a as1 ih =>
    cases hc with
    | cons _ nd _ vs0 _ hm hrest =>
      obtain ⟨vs1, vs2, q, hveq, hlen, hfst, hsnd⟩ := ih hrest
      exact ⟨nd.value :: vs1, vs2, q, by simp [hveq], by simp [hlen],
        .cons a nd as1 vs1 q hm hfst, hsnd⟩

theorem chainSeg_mem_some {α : Type} {h : Heap α} {p q : Ptr}
    {as : List Nat} {vs : List α} {a : Nat}
    (hc : ChainSeg h p as vs q) (ha : a ∈ as) : ∃ nd, h.mem a = some nd := by
  induction hc with
  | nil => cases ha
  | cons b nd as vs q hm hrest ih =>
    rcases List.mem_cons.mp ha with hab | hab
    · exact ⟨nd, hab ▸ hm⟩
    · exact ih hab

theorem notMem_of_fresh_le {α : Type} {h : Heap α} {p q : Ptr}
    {as : List Nat} {vs : List α} {b : Nat}
    (hwf : h.WF) (hc : ChainSeg h p as vs q) (hb : h.next_fresh ≤ b) :
    b ∉ as := by
  intro hin
  obtain ⟨nd, hm⟩ := chainSeg_mem_some hc hin
  have := lt_fresh_of_mem hwf hm
  omega

theorem chainSeg_none_det {α : Type} {h : Heap α} :
    ∀ {as as2 : List Nat} {vs vs2 : List α} {p : Ptr},
    ChainSeg h p as vs none → ChainSeg h p as2 vs2 none →
    as = as2 ∧ vs = vs2 := by
  intro as
  induction as with
  | nil =>
    intro as2 vs vs2 p h1 h2
    cases h1
    cases h2
    · exact ⟨rfl, rfl⟩
  | cons a as ih =>
    intro as2 vs vs2 p h1 h2
    cases h1 with
    | cons _ nd _ vs0 _ hm hrest =>
      cases h2 with
      | cons _ nd2 as2t vs2t _ hm2 hrest2 =>
        rw [hm] at hm2
        cases hm2
        obtain ⟨he1, he2⟩ := ih hrest hrest2
        exact ⟨by simp [he1], by simp [he2]⟩

theorem chainSeg_mem_split {α : Type} {h : Heap α} {a : Nat} :
    ∀ {as : List Nat} {vs : List α} {p : Ptr},
    ChainSeg h p as vs none → a ∈ as →
    ∃ as1 as2 vs1 vs2, as = as1 ++ a :: as2 ∧ vs = vs1 ++ vs2 ∧
      vs1.length = as1.length ∧ ChainSeg h (some a) (a :: as2) vs2 none := by
  intro as
  induction as with
  | nil => intro vs p _ ha; cases ha
  | cons b as ih =>
    intro vs p hc ha
    cases hc with
    | cons _ nd _ vs0 _ hm hrest =>
      rcases List.mem_cons.mp ha with hab | hab
      · subst hab
        exact ⟨[], as, [], nd.value :: vs0, rfl, rfl, rfl,
          .cons a nd as vs0 none hm hrest⟩
      · obtain ⟨as1, as2, vs1, vs2, he1, he2, hlen, hseg⟩ := ih hrest hab
        exact ⟨b :: as1, as2, nd.value :: vs1, vs2, by simp [he1],
          by simp [he2], by simp [hlen], hseg⟩

theorem chainSeg_self_notMem {α : Type} {h : Heap α} {a : Nat}
    {as : List Nat} {vs : List α}
    (hc : ChainSeg h (some a) (a :: as) vs none) : a ∉ as := by
  intro hin
  cases hc with
  | cons _ nd _ vs0 _ hm hrest =>
    obtain ⟨as1, as2, vs1, vs2, he1, he2, hlen, hseg⟩ :=
      chainSeg_mem_split hrest hin
    cases hseg with
    | cons _ nd2 _ vs2t _ hm2 hrest2 =>
      rw [hm] at hm2
      cases hm2
      obtain ⟨heq, _⟩ := chainSeg_none_det hrest hrest2
      rw [heq] at he1
      have hlen2 := congrArg List.length he1
      simp only [List.length_append, List.length_cons] at hlen2
      omega

theorem chainSeg_nodup {α : Type} {h : Heap α} :
    ∀ {as : List Nat} {vs : List α} {p : Ptr},
    ChainSeg h p as vs none → as.Nodup := by
  intro as
  induction as with
  | nil => intro vs p _; exact List.nodup_nil
  | cons a as ih =>
    intro vs p hc
    have hna : a ∉ as := by
      cases hc with
      | cons _ nd _ vs0 _ hm hrest =>
        exact chainSeg_self_notMem (.cons a nd as vs0 none hm hrest)
    cases hc with
    | cons _ nd _ vs0 _ hm hrest =>
      exact List.nodup_cons.mpr ⟨hna, ih hrest⟩

theorem head_notMem {α : Type} {h : Heap α} {hd : Nat} {snd : Node α}
    {as : List Nat} {vs : List α}
    (hm : h.mem hd = some snd)
    (hc : ChainSeg h snd.next_node as vs none) : hd ∉ as := by
  intro hin
  obtain ⟨as1, as2, vs1, vs2, he1, he2, hlen, hseg⟩ :=
    chainSeg_mem_split hc hin
  cases hseg with
  | cons _ nd2 _ vs2t _ hm2 hrest2 =>
    rw [hm] at hm2
    cases hm2
    obtain ⟨heq, _⟩ := chainSeg_none_det hc hrest2
    rw [heq] at he1
    have hlen2 := congrArg List.length he1
    simp only [List.length_append, List.length_cons] at hlen2
    omega

/-! ### Operation specifications -/

theorem pushFront_spec {α : Type} {h : Heap α} {L : SingleLinkedList}
    {as : List Nat} {vs : List α} (v : α)
    (hm : ModelsA h L as vs) :
    ∃ h2, PushFront h L v = some (h2, ⟨L.head_, L.size_ + 1⟩) ∧
      ModelsA h2 ⟨L.head_, L.size_ + 1⟩ (h.next_fresh :: as) (v :: vs) ∧
      h2.next_fresh = h.next_fresh + 1 ∧
      (∀ b, b ≠ L.head_ → b ≠ h.next_fresh → h2.mem b = h.mem b) := by
  obtain ⟨hwf, snd, hsnd, hchain, hsize⟩ := hm
  have hhd : L.head_ < h.next_fresh := lt_fresh_of_mem hwf hsnd
  have hhdas : L.head_ ∉ as := head_notMem hsnd hchain
  have hfas : h.next_fresh ∉ as := notMem_of_fresh_le hwf hchain le_rfl
  refine ⟨((h.alloc ⟨v, snd.next_node⟩).2).write L.head_
      ⟨snd.value, some h.next_fresh⟩, ?_, ?_, rfl, ?_⟩
  · simp only [PushFront, hsnd]
    rfl
  · refine ⟨?_, ⟨snd.value, some h.next_fresh⟩, mem_write_self _ _ _, ?_,
      by simp [hsize]⟩
    · exact wf_write _ (wf_alloc _ hwf) (by rw [fresh_alloc]; omega)
    · refine .cons h.next_fresh ⟨v, snd.next_node⟩ as vs none ?_ ?_
      · rw [mem_write_ne _ _ (by omega)]
        exact mem_alloc_self h _
      · refine chainSeg_frame (fun a ha => ?_) hchain
        rw [mem_write_ne _ _ (show a ≠ L.head_ by rintro rfl; exact hhdas ha),
          mem_alloc_ne _ _ (show a ≠ h.next_fresh by
            rintro rfl; exact hfas ha)]
  · intro b hb1 hb2
    rw [mem_write_ne _ _ hb1, mem_alloc_ne _ _ hb2]

theorem insertAfter_spec {α : Type} {h : Heap α} {L : SingleLinkedList}
    {as as1 as2 : List Nat} {vs : List α} {pos : BasicIterator} {p : Nat}
    (v : α) (hm : ModelsA h L as vs) (hpos : pos.node_ = some p)
    (hsplit : L.head_ :: as = as1 ++ p :: as2) :
    ∃ h2 it, InsertAfter h L pos v = some (h2, ⟨L.head_, L.size_ + 1⟩, it) ∧
      it.node_ = some h.next_fresh ∧
      (∃ nd, h2.mem h.next_fresh = some nd ∧ nd.value = v) ∧
      (∃ as3, L.head_ :: as3 = as1 ++ p :: h.next_fresh :: as2 ∧
        ModelsA h2 ⟨L.head_, L.size_ + 1⟩ as3
          (vs.take as1.length ++ v :: vs.drop as1.length)) ∧
      h2.next_fresh = h.next_fresh + 1 ∧
      (∀ b, b ≠ p → b ≠ h.next_fresh → h2.mem b = h.mem b) := by
  obtain ⟨hwf, snd, hsnd, hchain, hsize⟩ := hm
  have hhd : L.head_ < h.next_fresh := lt_fresh_of_mem hwf hsnd
  have hhdas : L.head_ ∉ as := head_notMem hsnd hchain
  have hfas : h.next_fresh ∉ as := notMem_of_fresh_le hwf hchain le_rfl
  cases as1 with
  | nil =>
    simp only [List.nil_append] at hsplit
    injection hsplit with hp has
    subst has
    have hpos2 : pos.node_ = some L.head_ := by rw [hpos, hp]
    refine ⟨((h.alloc ⟨v, snd.next_node⟩).2).write L.head_
        ⟨snd.value, some h.next_fresh⟩, ⟨some h.next_fresh⟩, ?_, rfl, ?_, ?_,
        rfl, ?_⟩
    · simp only [InsertAfter, hpos2, hsnd]
      rfl
    · refine ⟨⟨v, snd.next_node⟩, ?_, rfl⟩
      rw [mem_write_ne _ _ (by omega)]
      exact mem_alloc_self h _
    · refine ⟨h.next_fresh :: as, by simp [hp], ?_,
        ⟨snd.value, some h.next_fresh⟩, mem_write_self _ _ _, ?_,
        by simp [hsize]⟩
      · exact wf_write _ (wf_alloc _ hwf) (by rw [fresh_alloc]; omega)
      · simp only [List.length_nil, List.take_zero, List.drop_zero]
        refine .cons h.next_fresh ⟨v, snd.next_node⟩ as vs none ?_ ?_
        · rw [mem_write_ne _ _ (by omega)]
          exact mem_alloc_self h _
        · refine chainSeg_frame (fun a ha => ?_) hchain
          rw [mem_write_ne _ _ (show a ≠ L.head_ by
              rintro rfl; exact hhdas ha),
            mem_alloc_ne _ _ (show a ≠ h.next_fresh by
              rintro rfl; exact hfas ha)]
    · intro b hb1 hb2
      rw [mem_write_ne _ _ (by rw [hp]; exact hb1),
        mem_alloc_ne _ _ hb2]
  | cons b as1t =>
    have hb : b = L.head_ := (List.head_eq_of_cons_eq hsplit).symm
    subst hb
    have has : as = as1t ++ p :: as2 := List.tail_eq_of_cons_eq hsplit
    subst has
    obtain ⟨vs1, vs2, q, hveq, hlen1, hseg1, hseg2⟩ := chainSeg_split hchain
    cases hseg2 with
    | cons _ pnd _ vs2t _ hp hseg3 =>
      have hnd : List.Nodup (as1t ++ p :: as2) := chainSeg_nodup hchain
      have hp1 : p ∉ as1t := by
        intro hx
        exact (List.nodup_append.mp hnd).2.2 hx (by simp)
      have hp2 : p ∉ as2 := by
        have := (List.nodup_append.mp hnd).2.1
        exact (List.nodup_cons.mp this).1
      have hphd : p ≠ L.head_ := by
        intro hx
        exact hhdas (hx ▸ (by simp : p ∈ as1t ++ p :: as2))
      have hpfresh : p < h.next_fresh := lt_fresh_of_mem hwf hp
      have hf1 : h.next_fresh ∉ as1t := fun hx => hfas (by simp [hx])
      have hf2 : h.next_fresh ∉ as2 := fun hx => hfas (by simp [hx])
      refine ⟨((h.alloc ⟨v, pnd.next_node⟩).2).write p
          ⟨pnd.value, some h.next_fresh⟩, ⟨some h.next_fresh⟩, ?_, rfl, ?_,
          ?_, rfl, ?_⟩
      · simp only [InsertAfter, hpos, hp]
        rfl
      · refine ⟨⟨v, pnd.next_node⟩, ?_, rfl⟩
        rw [mem_write_ne _ _ (by omega)]
        exact mem_alloc_self h _
      · refine ⟨as1t ++ p :: h.next_fresh :: as2, rfl, ?_,
          ⟨snd.value, snd.next_node⟩, ?_, ?_, ?_⟩
        · exact wf_write _ (wf_alloc _ hwf) (by rw [fresh_alloc]; omega)
        · rw [mem_write_ne _ _ hphd.symm,
            mem_alloc_ne _ _ (by omega : L.head_ ≠ h.next_fresh)]
          exact hsnd
        · have hfr1 : ChainSeg (((h.alloc ⟨v, pnd.next_node⟩).2).write p
              ⟨pnd.value, some h.next_fresh⟩) snd.next_node as1t vs1
              (some p) := by
            refine chainSeg_frame (fun a ha => ?_) hseg1
            rw [mem_write_ne _ _ (show a ≠ p by rintro rfl; exact hp1 ha),
              mem_alloc_ne _ _ (show a ≠ h.next_fresh by
                rintro rfl; exact hf1 ha)]
          have hfr3 : ChainSeg (((h.alloc ⟨v, pnd.next_node⟩).2).write p
              ⟨pnd.value, some h.next_fresh⟩) pnd.next_node as2 vs2t none := by
            refine chainSeg_frame (fun a ha => ?_) hseg3
            rw [mem_write_ne _ _ (show a ≠ p by rintro rfl; exact hp2 ha),
              mem_alloc_ne _ _ (show a ≠ h.next_fresh by
                rintro rfl; exact hf2 ha)]
          have htail : ChainSeg (((h.alloc ⟨v, pnd.next_node⟩).2).write p
              ⟨pnd.value, some h.next_fresh⟩) (some p)
              (p :: h.next_fresh :: as2) (pnd.value :: v :: vs2t) none := by
            refine .cons p ⟨pnd.value, some h.next_fresh⟩ _ _ none
              (mem_write_self _ _ _) ?_
            refine .cons h.next_fresh ⟨v, pnd.next_node⟩ _ _ none ?_ hfr3
            rw [mem_write_ne _ _ (by omega)]
            exact mem_alloc_self h _
          have hall := chainSeg_append hfr1 htail
          have hvals : vs.take (List.length (L.head_ :: as1t)) ++
              v :: vs.drop (List.length (L.head_ :: as1t)) =
              vs1 ++ pnd.value :: v :: vs2t := by
            rw [hveq]
            simp only [List.length_cons]
            rw [List.take_append_eq_append_take,
              List.drop_append_eq_append_drop]
            rw [List.take_of_length_le (by omega),
              List.drop_eq_nil_of_le (by omega)]
            have h1 : as1t.length + 1 - vs1.length = 1 := by omega
            rw [h1]
            simp
          rw [hvals]
          exact hall
        · simp only [List.length_append, List.length_cons, List.length_take,
            List.length_drop, hsize, hveq]
          omega
      · intro b hb1 hb2
        rw [mem_write_ne _ _ hb1, mem_alloc_ne _ _ hb2]

theorem chainSeg_none_ptr {α : Type} {h : Heap α} {p : Ptr}
    {as : List Nat} {vs : List α}
    (hc : ChainSeg h p as vs none) : p = as.head? := by
  cases hc <;> rfl

theorem chainSeg_cons_inv {α : Type} {h : Heap α} {p q : Ptr} {a : Nat}
    {as : List Nat} {vs : List α}
    (hc : ChainSeg h p (a :: as) vs q) :
    p = some a ∧ ∃ nd vs0, h.mem a = some nd ∧ vs = nd.value :: vs0 ∧
      ChainSeg h nd.next_node as vs0 q := by
  cases hc with
  | cons _ nd _ vs0 _ hm hrest => exact ⟨rfl, nd, vs0, hm, rfl, hrest⟩

theorem popFront_spec {α : Type} {h : Heap α} {L : SingleLinkedList}
    {as ast : List Nat} {d : Nat} {vs : List α}
    (hm : ModelsA h L as vs) (hd : as = d :: ast) :
    ∃ h2, PopFront h L = some (h2, ⟨L.head_, L.size_ - 1⟩) ∧
      ModelsA h2 ⟨L.head_, L.size_ - 1⟩ ast vs.tail ∧
      L.size_ = vs.length ∧ vs.length = ast.length + 1 ∧
      h2.next_fresh = h.next_fresh ∧
      (∀ b, b ≠ L.head_ → b ≠ d → h2.mem b = h.mem b) := by
  obtain ⟨hwf, snd, hsnd, hchain, hsize⟩ := hm
  subst hd
  have hhd : L.head_ < h.next_fresh := lt_fresh_of_mem hwf hsnd
  have hhdas : L.head_ ∉ d :: ast := head_notMem hsnd hchain
  have hhd1 : L.head_ ≠ d := fun hx => hhdas (by simp [hx])
  have hhd2 : L.head_ ∉ ast := fun hx => hhdas (by simp [hx])
  obtain ⟨hptr, dnd, vst, hdm, hveq, hrest⟩ := chainSeg_cons_inv hchain
  subst hveq
  have hdast : d ∉ ast :=
    chainSeg_self_notMem (.cons d dnd ast vst none hdm hrest)
  refine ⟨(h.write L.head_ ⟨snd.value, dnd.next_node⟩).free d, ?_, ?_, hsize,
    by simp [chainSeg_length hrest], rfl, ?_⟩
  · simp only [PopFront, hsnd, hptr, hdm]
  · refine ⟨?_, ⟨snd.value, dnd.next_node⟩, ?_, ?_, ?_⟩
    · exact wf_free _ (wf_write _ hwf hhd)
    · rw [mem_free_ne _ hhd1, mem_write_self]
    · refine chainSeg_frame (fun a ha => ?_) hrest
      rw [mem_free_ne _ (show a ≠ d by rintro rfl; exact hdast ha),
        mem_write_ne _ _ (show a ≠ L.head_ by
          rintro rfl; exact hhd2 ha)]
    · simp [hsize]
  · intro b hb1 hb2
    rw [mem_free_ne _ hb2, mem_write_ne _ _ hb1]

theorem eraseAfter_spec {α : Type} {h : Heap α} {L : SingleLinkedList}
    {as as1 as2 : List Nat} {vs : List α} {pos : BasicIterator} {p d : Nat}
    (hm : ModelsA h L as vs) (hpos : pos.node_ = some p)
    (hsplit : L.head_ :: as = as1 ++ p :: d :: as2) :
    ∃ h2 it, EraseAfter h L pos = some (h2, ⟨L.head_, L.size_ - 1⟩, it) ∧
      it.node_ = as2.head? ∧
      (∃ as3, L.head_ :: as3 = as1 ++ p :: as2 ∧
        ModelsA h2 ⟨L.head_, L.size_ - 1⟩ as3
          (vs.take as1.length ++ vs.drop (as1.length + 1))) ∧
      1 ≤ L.size_ ∧
      h2.next_fresh = h.next_fresh ∧
      (∀ b, b ≠ p → b ≠ d → h2.mem b = h.mem b) := by
  obtain ⟨hwf, snd, hsnd, hchain, hsize⟩ := hm
  have hhd : L.head_ < h.next_fresh := lt_fresh_of_mem hwf hsnd
  have hhdas : L.head_ ∉ as := head_notMem hsnd hchain
  cases as1 with
  | nil =>
    simp only [List.nil_append] at hsplit
    injection hsplit with hp has
    subst has
    have hpos2 : pos.node_ = some L.head_ := by rw [hpos, hp]
    have hhd1 : L.head_ ≠ d := fun hx => hhdas (by simp [hx])
    obtain ⟨hptr, dnd, vst, hdm, hveq, hrest⟩ := chainSeg_cons_inv hchain
    subst hveq
    have hdas2 : d ∉ as2 :=
      chainSeg_self_notMem (.cons d dnd as2 vst none hdm hrest)
    have hhd2 : L.head_ ∉ as2 := fun hx => hhdas (by simp [hx])
    refine ⟨(h.write L.head_ ⟨snd.value, dnd.next_node⟩).free d,
      ⟨dnd.next_node⟩, ?_, by rw [chainSeg_none_ptr hrest], ?_,
      by simp [hsize], rfl, ?_⟩
    · simp only [EraseAfter, hpos2, hsnd, hptr, hdm]
      rw [mem_free_ne _ hhd1, mem_write_self]
    · refine ⟨as2, by simp [hp], ?_, ⟨snd.value, dnd.next_node⟩, ?_, ?_, ?_⟩
      · exact wf_free _ (wf_write _ hwf hhd)
      · rw [mem_free_ne _ hhd1, mem_write_self]
      · simp only [List.length_nil, List.take_zero, Nat.zero_add,
          List.nil_append, List.drop_succ_cons, List.drop_zero]
        refine chainSeg_frame (fun a ha => ?_) hrest
        rw [mem_free_ne _ (show a ≠ d by rintro rfl; exact hdas2 ha),
          mem_write_ne _ _ (show a ≠ L.head_ by
            rintro rfl; exact hhd2 ha)]
      · simp [hsize]
    · intro b hb1 hb2
      rw [mem_free_ne _ hb2, mem_write_ne _ _ (by rw [hp]; exact hb1)]
  | cons b0 as1t =>
    have hb : b0 = L.head_ := (List.head_eq_of_cons_eq hsplit).symm
    subst hb
    have has : as = as1t ++ p :: d :: as2 := List.tail_eq_of_cons_eq hsplit
    subst has
    obtain ⟨vs1, vs2, q, hveq, hlen1, hseg1, hseg2⟩ := chainSeg_split hchain
    obtain ⟨hq, pnd, vs2a, hp, hveq2, hseg2b⟩ := chainSeg_cons_inv hseg2
    subst hq hveq2
    obtain ⟨hptr2, dnd, vst, hdm, hveq3, hrest⟩ := chainSeg_cons_inv hseg2b
    subst hveq3
    have hnd : (as1t ++ p :: d :: as2).Nodup := chainSeg_nodup hchain
    obtain ⟨hnd1, hnd2, hdisj⟩ := List.nodup_append.mp hnd
    have hp1 : p ∉ as1t := fun hx => hdisj hx (by simp)
    have hd1 : d ∉ as1t := fun hx => hdisj hx (by simp)
    have hpd : p ≠ d := fun hx => (List.nodup_cons.mp hnd2).1 (by simp [hx])
    have hpas2 : p ∉ as2 := fun hx =>
      (List.nodup_cons.mp hnd2).1 (by simp [hx])
    have hdas2 : d ∉ as2 :=
      (List.nodup_cons.mp (List.nodup_cons.mp hnd2).2).1
    have hhp : L.head_ ≠ p := fun hx => hhdas (by simp [hx])
    have hhdd : L.head_ ≠ d := fun hx => hhdas (by simp [hx])
    have hh1 : L.head_ ∉ as1t := fun hx => hhdas (by simp [hx])
    have hh2 : L.head_ ∉ as2 := fun hx => hhdas (by simp [hx])
    refine ⟨(h.write p ⟨pnd.value, dnd.next_node⟩).free d,
      ⟨dnd.next_node⟩, ?_, by rw [chainSeg_none_ptr hrest], ?_,
      by simp only [hsize, hveq, List.length_append, List.length_cons]; omega,
      rfl, ?_⟩
    · simp only [EraseAfter, hpos, hp, hptr2, hdm]
      rw [mem_free_ne _ hpd, mem_write_self]
    · refine ⟨as1t ++ p :: as2, by simp, ?_,
        ⟨snd.value, snd.next_node⟩, ?_, ?_, ?_⟩
      · exact wf_free _ (wf_write _ hwf (lt_fresh_of_mem hwf hp))
      · rw [mem_free_ne _ hhdd, mem_write_ne _ _ hhp]
        exact hsnd
      · have hfr1 : ChainSeg ((h.write p ⟨pnd.value, dnd.next_node⟩).free d)
            snd.next_node as1t vs1 (some p) := by
          refine chainSeg_frame (fun a ha => ?_) hseg1
          rw [mem_free_ne _ (show a ≠ d by rintro rfl; exact hd1 ha),
            mem_write_ne _ _ (show a ≠ p by rintro rfl; exact hp1 ha)]
        have hfr3 : ChainSeg ((h.write p ⟨pnd.value, dnd.next_node⟩).free d)
            dnd.next_node as2 vst none := by
          refine chainSeg_frame (fun a ha => ?_) hrest
          rw [mem_free_ne _ (show a ≠ d by rintro rfl; exact hdas2 ha),
            mem_write_ne _ _ (show a ≠ p by rintro rfl; exact hpas2 ha)]
        have htail : ChainSeg ((h.write p ⟨pnd.value, dnd.next_node⟩).free d)
            (some p) (p :: as2) (pnd.value :: vst) none := by
          refine .cons p ⟨pnd.value, dnd.next_node⟩ _ _ none ?_ hfr3
          rw [mem_free_ne _ hpd, mem_write_self]
        have hall := chainSeg_append hfr1 htail
        have hvals : vs.take (List.length (L.head_ :: as1t)) ++
            vs.drop (List.length (L.head_ :: as1t) + 1) =
            vs1 ++ pnd.value :: vst := by
          rw [hveq]
          simp only [List.length_cons]
          rw [List.take_append_eq_append_take,
            List.drop_append_eq_append_drop]
          rw [List.take_of_length_le (by omega),
            List.drop_eq_nil_of_le (by omega)]
          have h1 : as1t.length + 1 - vs1.length = 1 := by omega
          have h2 : as1t.length + 1 + 1 - vs1.length = 2 := by omega
          rw [h1, h2]
          simp
        rw [hvals]
        exact hall
      · simp only [List.length_append, List.length_cons, List.length_take,
          List.length_drop, hsize, hveq]
        omega
    · intro b hb1 hb2
      rw [mem_free_ne _ hb2, mem_write_ne _ _ hb1]

theorem modelsA_frame {α : Type} {h h2 : Heap α} {L : SingleLinkedList}
    {as : List Nat} {vs : List α}
    (hm : ModelsA h L as vs)
    (hagree : ∀ b ∈ L.head_ :: as, h2.mem b = h.mem b)
    (hwf2 : h2.WF) : ModelsA h2 L as vs := by
  obtain ⟨hwf, snd, hsnd, hchain, hsize⟩ := hm
  refine ⟨hwf2, snd, ?_, ?_, hsize⟩
  · rw [hagree L.head_ (by simp)]
    exact hsnd
  · exact chainSeg_frame (fun a ha => hagree a (by simp [ha])) hchain

theorem chainSeg_nil_inv {α : Type} {h : Heap α} {p q : Ptr} {vs : List α}
    (hc : ChainSeg h p [] vs q) : vs = [] ∧ p = q := by
  cases hc with
  | nil => exact ⟨rfl, rfl⟩

theorem clearLoop_spec {α : Type} :
    ∀ {as : List Nat} {vs : List α} {h : Heap α} {hd : Nat} {snd : Node α},
    h.WF → h.mem hd = some snd → ChainSeg h snd.next_node as vs none →
    ∃ h2, clearLoop h hd as.length = some h2 ∧
      h2.WF ∧ h2.mem hd = some ⟨snd.value, none⟩ ∧
      h2.next_fresh = h.next_fresh ∧
      (∀ b, b ≠ hd → b ∉ as → h2.mem b = h.mem b) := by
  intro as
  induction as with
  | nil =>
    intro vs h hd snd hwf hsnd hchain
    obtain ⟨hv, hpq⟩ := chainSeg_nil_inv hchain
    refine ⟨h, rfl, hwf, ?_, rfl, fun b _ _ => rfl⟩
    rw [hsnd, ← hpq]
  | cons d ast ih =>
    intro vs h hd snd hwf hsnd hchain
    obtain ⟨hptr, dnd, vst, hdm, hveq, hrest⟩ := chainSeg_cons_inv hchain
    have hhd : hd < h.next_fresh := lt_fresh_of_mem hwf hsnd
    have hhdas : hd ∉ d :: ast := head_notMem hsnd hchain
    have hhd1 : hd ≠ d := fun hx => hhdas (by simp [hx])
    have hhd2 : hd ∉ ast := fun hx => hhdas (by simp [hx])
    have hdast : d ∉ ast :=
      chainSeg_self_notMem (.cons d dnd ast vst none hdm hrest)
    have hwf1 : ((h.free d).write hd ⟨snd.value, dnd.next_node⟩).WF :=
      wf_write _ (wf_free _ hwf) hhd
    have hsnd1 : ((h.free d).write hd ⟨snd.value, dnd.next_node⟩).mem hd =
        some ⟨snd.value, dnd.next_node⟩ := mem_write_self _ _ _
    have hch1 : ChainSeg ((h.free d).write hd ⟨snd.value, dnd.next_node⟩)
        (Node.next_node ⟨snd.value, dnd.next_node⟩) ast vst none := by
      refine chainSeg_frame (fun a ha => ?_) hrest
      rw [mem_write_ne _ _ (show a ≠ hd by rintro rfl; exact hhd2 ha),
        mem_free_ne _ (show a ≠ d by rintro rfl; exact hdast ha)]
    obtain ⟨h2, hloop, hwf2, hmem2, hfresh2, hframe2⟩ := ih hwf1 hsnd1 hch1
    refine ⟨h2, ?_, hwf2, hmem2, hfresh2, ?_⟩
    · simp only [List.length_cons, clearLoop, hsnd, hptr, hdm]
      exact hloop
    · intro b hb1 hb2
      rw [hframe2 b hb1 (fun hx => hb2 (by simp [hx])),
        mem_write_ne _ _ hb1,
        mem_free_ne _ (show b ≠ d by rintro rfl; exact hb2 (by simp))]

theorem clear_spec {α : Type} {h : Heap α} {L : SingleLinkedList}
    {as : List Nat} {vs : List α}
    (hm : ModelsA h L as vs) :
    ∃ h2, Clear h L = some (h2, ⟨L.head_, 0⟩) ∧
      ModelsA h2 ⟨L.head_, 0⟩ [] [] ∧
      h2.next_fresh = h.next_fresh ∧
      (∀ b, b ≠ L.head_ → b ∉ as → h2.mem b = h.mem b) := by
  obtain ⟨hwf, snd, hsnd, hchain, hsize⟩ := hm
  obtain ⟨h2, hloop, hwf2, hmem2, hfresh2, hframe2⟩ :=
    clearLoop_spec hwf hsnd hchain
  have hlen : L.size_ = as.length := by
    rw [hsize, chainSeg_length hchain]
  refine ⟨h2, ?_, ⟨hwf2, ⟨snd.value, none⟩, hmem2, .nil none, rfl⟩,
    hfresh2, hframe2⟩
  simp only [Clear, hlen, hloop]
  rfl

theorem swap_spec {α : Type} {h : Heap α} {L1 L2 : SingleLinkedList}
    {as1 as2 : List Nat} {vs1 vs2 : List α}
    (hm1 : ModelsA h L1 as1 vs1) (hm2 : ModelsA h L2 as2 vs2)
    (hdisj : ∀ b ∈ L1.head_ :: as1, b ∉ L2.head_ :: as2) :
    ∃ h2, swapLists h L1 L2 =
        some (h2, ⟨L1.head_, L2.size_⟩, ⟨L2.head_, L1.size_⟩) ∧
      ModelsA h2 ⟨L1.head_, L2.size_⟩ as2 vs2 ∧
      ModelsA h2 ⟨L2.head_, L1.size_⟩ as1 vs1 ∧
      h2.next_fresh = h.next_fresh ∧
      (∀ b, b ≠ L1.head_ → b ≠ L2.head_ → h2.mem b = h.mem b) := by
  obtain ⟨hwf, snd1, hsnd1, hchain1, hsize1⟩ := hm1
  obtain ⟨_, snd2, hsnd2, hchain2, hsize2⟩ := hm2
  have hne : L1.head_ ≠ L2.head_ := fun hx =>
    hdisj L1.head_ (by simp) (by simp [hx])
  have hh1as1 : L1.head_ ∉ as1 := head_notMem hsnd1 hchain1
  have hh2as2 : L2.head_ ∉ as2 := head_notMem hsnd2 hchain2
  have hh1as2 : L1.head_ ∉ as2 := fun hx =>
    hdisj L1.head_ (by simp) (by simp [hx])
  have hh2as1 : L2.head_ ∉ as1 := fun hx =>
    hdisj L2.head_ (by simp [hx]) (by simp)
  have hlt1 : L1.head_ < h.next_fresh := lt_fresh_of_mem hwf hsnd1
  have hlt2 : L2.head_ < h.next_fresh := lt_fresh_of_mem hwf hsnd2
  have hwf2 : ((h.write L1.head_ ⟨snd1.value, snd2.next_node⟩).write L2.head_
      ⟨snd2.value, snd1.next_node⟩).WF :=
    wf_write _ (wf_write _ hwf hlt1) hlt2
  refine ⟨(h.write L1.head_ ⟨snd1.value, snd2.next_node⟩).write L2.head_
      ⟨snd2.value, snd1.next_node⟩, ?_, ?_, ?_, rfl, ?_⟩
  · simp only [swapLists, hsnd1, hsnd2]
  · refine ⟨hwf2, ⟨snd1.value, snd2.next_node⟩, ?_, ?_, hsize2⟩
    · rw [mem_write_ne _ _ hne, mem_write_self]
    · refine chainSeg_frame (fun a ha => ?_) hchain2
      rw [mem_write_ne _ _ (show a ≠ L2.head_ by
          rintro rfl; exact hh2as2 ha),
        mem_write_ne _ _ (show a ≠ L1.head_ by
          rintro rfl; exact hh1as2 ha)]
  · refine ⟨hwf2, ⟨snd2.value, snd1.next_node⟩, mem_write_self _ _ _, ?_,
      hsize1⟩
    refine chainSeg_frame (fun a ha => ?_) hchain1
    rw [mem_write_ne _ _ (show a ≠ L2.head_ by
        rintro rfl; exact hh2as1 ha),
      mem_write_ne _ _ (show a ≠ L1.head_ by
        rintro rfl; exact hh1as1 ha)]
  · intro b hb1 hb2
    rw [mem_write_ne _ _ hb2, mem_write_ne _ _ hb1]

theorem readList_of_chainSeg {α : Type} {h : Heap α} :
    ∀ {as : List Nat} {vs : List α} {p : Ptr} {fuel : Nat},
    ChainSeg h p as vs none → vs.length ≤ fuel →
    readList h fuel p = some vs := by
  intro as
  induction as with
  | nil =>
    intro vs p fuel hc _
    obtain ⟨hv, hpq⟩ := chainSeg_nil_inv hc
    subst hv
    rw [hpq]
    cases fuel <;> rfl
  | cons a ast ih =>
    intro vs p fuel hc hfuel
    obtain ⟨hptr, nd, vst, hmm, hveq, hrest⟩ := chainSeg_cons_inv hc
    subst hveq hptr
    cases fuel with
    | zero => simp at hfuel
    | succ f =>
      have hlen : vst.length ≤ f := by
        simp only [List.length_cons] at hfuel
        omega
      simp only [readList, hmm, ih hrest hlen]
      rfl

theorem modelsA_lt_fresh {α : Type} {h : Heap α} {L : SingleLinkedList}
    {as : List Nat} {vs : List α}
    (hm : ModelsA h L as vs) : ∀ b ∈ L.head_ :: as, b < h.next_fresh := by
  obtain ⟨hwf, snd, hsnd, hchain, hsize⟩ := hm
  intro b hb
  rcases List.mem_cons.mp hb with hb | hb
  · exact hb ▸ lt_fresh_of_mem hwf hsnd
  · obtain ⟨nd, hnd⟩ := chainSeg_mem_some hchain hb
    exact lt_fresh_of_mem hwf hnd

theorem pushFrontAll_spec {α : Type} :
    ∀ {ws : List α} {h : Heap α} {L : SingleLinkedList} {as : List Nat}
      {vs : List α},
    ModelsA h L as vs →
    ∃ h2 L2 as2, pushFrontAll h L ws = some (h2, L2) ∧
      L2.head_ = L.head_ ∧ L2.size_ = L.size_ + ws.length ∧
      ModelsA h2 L2 as2 (ws.reverse ++ vs) ∧
      h.next_fresh ≤ h2.next_fresh ∧
      (∀ b, b ≠ L.head_ → b < h.next_fresh → h2.mem b = h.mem b) ∧
      (∀ b ∈ as2, b ∈ as ∨ h.next_fresh ≤ b) := by
  intro ws
  induction ws with
  | nil =>
    intro h L as vs hm
    exact ⟨h, L, as, rfl, rfl, rfl, by simpa using hm, le_rfl,
      fun b _ _ => rfl, fun b hb => Or.inl hb⟩
  | cons w ws ih =>
    intro h L as vs hm
    obtain ⟨h1, hpush, hm1, hfresh1, hframe1⟩ := pushFront_spec w hm
    obtain ⟨h2, L2, as2, hall, hh, hsz, hm2, hfresh2, hframe2, hmem2⟩ :=
      ih hm1
    refine ⟨h2, L2, as2, ?_, by simpa using hh, by simp at hsz ⊢; omega,
      ?_, ?_, ?_, ?_⟩
    · simp only [pushFrontAll, hpush]
      exact hall
    · simpa [List.append_assoc] using hm2
    · rw [hfresh1] at hfresh2
      omega
    · intro b hb1 hb2
      rw [hframe2 b (by simpa using hb1) (by omega)]
      exact hframe1 b hb1 (by omega)
    · intro b hb
      rcases hmem2 b hb with hb2 | hb2
      · rcases List.mem_cons.mp hb2 with hb3 | hb3
        · right
          omega
        · exact Or.inl hb3
      · right
        omega

theorem ofValues_spec {α : Type} [Inhabited α] {h : Heap α} (vals : List α)
    (hwf : h.WF) :
    ∃ h2 L as, ofValues h vals = some (h2, L) ∧
      ModelsA h2 L as vals ∧
      L.head_ = h.next_fresh ∧
      h.next_fresh ≤ h2.next_fresh ∧
      (∀ b, b < h.next_fresh → h2.mem b = h.mem b) ∧
      (∀ b ∈ as, h.next_fresh ≤ b) := by
  have hm0 : ModelsA (h.alloc ⟨default, none⟩).2
      ⟨h.next_fresh, 0⟩ ([] : List Nat) ([] : List α) :=
    ⟨wf_alloc _ hwf, ⟨default, none⟩, mem_alloc_self h _, .nil none, rfl⟩
  obtain ⟨h2, L2, as2, hall, hh, hsz, hm2, hfresh2, hframe2, hmem2⟩ :=
    @pushFrontAll_spec _ vals.reverse _ _ _ _ hm0
  refine ⟨h2, L2, as2, hall, by simpa using hm2, by simpa using hh, ?_, ?_, ?_⟩
  · rw [fresh_alloc] at hfresh2
    omega
  · intro b hb
    rw [hframe2 b (by simpa using (by omega : b ≠ h.next_fresh))
      (by rw [fresh_alloc]; omega)]
    exact mem_alloc_ne _ _ (by omega)
  · intro b hb
    rcases hmem2 b hb with hb2 | hb2
    · cases hb2
    · rw [fresh_alloc] at hb2
      omega

theorem copyCtor_spec {α : Type} [Inhabited α] {h : Heap α}
    {src : SingleLinkedList} {as : List Nat} {vs : List α} {fuel : Nat}
    (hm : ModelsA h src as vs) (hfuel : vs.length ≤ fuel) :
    ∃ h2 L2 as2, copyCtor h src fuel = some (h2, L2) ∧
      ModelsA h2 L2 as2 vs ∧
      ModelsA h2 src as vs ∧
      L2.head_ = h.next_fresh ∧
      h.next_fresh ≤ h2.next_fresh ∧
      (∀ b, b < h.next_fresh → h2.mem b = h.mem b) ∧
      (∀ b ∈ as2, h.next_fresh ≤ b) := by
  obtain ⟨hwf, osnd, hosnd, hchain, hsize⟩ := hm
  have hsrc_lt : src.head_ < h.next_fresh := lt_fresh_of_mem hwf hosnd
  have hosnd1 : (h.alloc (⟨default, none⟩ : Node α)).2.mem src.head_ =
      some osnd := by
    rw [mem_alloc_ne _ _ (by omega)]
    exact hosnd
  have hchain1 : ChainSeg (h.alloc (⟨default, none⟩ : Node α)).2
      osnd.next_node as vs none := by
    refine chainSeg_frame (fun a ha => ?_) hchain
    obtain ⟨nd, hnd⟩ := chainSeg_mem_some hchain ha
    exact mem_alloc_ne _ _ (by have := lt_fresh_of_mem hwf hnd; omega)
  have hread : readList (h.alloc (⟨default, none⟩ : Node α)).2 fuel
      osnd.next_node = some vs := readList_of_chainSeg hchain1 hfuel
  have hm0 : ModelsA (h.alloc ⟨default, none⟩).2
      ⟨h.next_fresh, 0⟩ ([] : List Nat) ([] : List α) :=
    ⟨wf_alloc _ hwf, ⟨default, none⟩, mem_alloc_self h _, .nil none, rfl⟩
  obtain ⟨h2, L2, as2, hall, hh, hsz, hm2, hfresh2, hframe2, hmem2⟩ :=
    @pushFrontAll_spec _ vs.reverse _ _ _ _ hm0
  have hframe : ∀ b, b < h.next_fresh → h2.mem b = h.mem b := by
    intro b hb
    rw [hframe2 b (by simpa using (by omega : b ≠ h.next_fresh))
      (by rw [fresh_alloc]; omega)]
    exact mem_alloc_ne _ _ (by omega)
  refine ⟨h2, L2, as2, ?_, by simpa using hm2, ?_, by simpa using hh, ?_,
    hframe, ?_⟩
  · simp only [copyCtor, mkDefault, hosnd1, hread, InitFromForwardRange]
    exact hall
  · refine modelsA_frame ⟨hwf, osnd, hosnd, hchain, hsize⟩
      (fun b hb => ?_) hm2.1
    exact hframe b (modelsA_lt_fresh ⟨hwf, osnd, hosnd, hchain, hsize⟩ b hb)
  · rw [fresh_alloc] at hfresh2
    omega
  · intro b hb
    rcases hmem2 b hb with hb2 | hb2
    · cases hb2
    · rw [fresh_alloc] at hb2
      omega

theorem destroy_spec {α : Type} {h : Heap α} {L : SingleLinkedList}
    {as : List Nat} {vs : List α}
    (hm : ModelsA h L as vs) :
    ∃ h2, destroy h L = some h2 ∧ h2.WF ∧
      h2.next_fresh = h.next_fresh ∧
      (∀ b, b ≠ L.head_ → b ∉ as → h2.mem b = h.mem b) := by
  obtain ⟨h1, hclear, hm1, hfresh1, hframe1⟩ := clear_spec hm
  refine ⟨h1.free L.head_, ?_, wf_free _ hm1.1, hfresh1, ?_⟩
  · simp only [destroy, hclear]
    rfl
  · intro b hb1 hb2
    rw [mem_free_ne _ hb1]
    exact hframe1 b hb1 hb2

theorem operatorAssign_spec {α : Type} [Inhabited α] {h : Heap α}
    {L rhs : SingleLinkedList} {asL asR : List Nat} {vsL vsR : List α}
    {fuel : Nat}
    (hmL : ModelsA h L asL vsL) (hmR : ModelsA h rhs asR vsR)
    (hdisj : ∀ b ∈ L.head_ :: asL, b ∉ rhs.head_ :: asR)
    (hfuel : vsR.length ≤ fuel) :
    ∃ h2 L2 as2, operatorAssign h L rhs fuel = some (h2, L2) ∧
      L2.head_ = L.head_ ∧ L2.size_ = vsR.length ∧
      ModelsA h2 L2 as2 vsR ∧
      ModelsA h2 rhs asR vsR ∧
      (∀ b ∈ as2, h.next_fresh ≤ b) ∧
      h.next_fresh ≤ h2.next_fresh := by
  have hne : L.head_ ≠ rhs.head_ := fun hx =>
    hdisj L.head_ (by simp) (by simp [hx])
  obtain ⟨h1, T, asT, hcopy, hmT, hmR1, hTh, hfr1, hframe1, hmemT⟩ :=
    copyCtor_spec hmR hfuel
  have hLlt : ∀ b ∈ L.head_ :: asL, b < h.next_fresh := modelsA_lt_fresh hmL
  have hRlt : ∀ b ∈ rhs.head_ :: asR, b < h.next_fresh := modelsA_lt_fresh hmR
  have hmL1 : ModelsA h1 L asL vsL :=
    modelsA_frame hmL (fun b hb => hframe1 b (hLlt b hb)) hmT.1
  have hdisjT : ∀ b ∈ L.head_ :: asL, b ∉ T.head_ :: asT := by
    intro b hb hmem
    have hlt := hLlt b hb
    rcases List.mem_cons.mp hmem with hb2 | hb2
    · rw [hb2, hTh] at hlt
      omega
    · have := hmemT b hb2
      omega
  obtain ⟨h2, hswap, hm2a, hm2b, hfr2, hframe2⟩ := swap_spec hmL1 hmT hdisjT
  have hRnotL : ∀ b ∈ rhs.head_ :: asR, b ≠ L.head_ ∧ b ∉ asL := by
    intro b hb
    constructor
    · intro hx
      exact hdisj L.head_ (by simp) (hx ▸ hb)
    · intro hx
      exact hdisj b (by simp [hx]) hb
  have hmR2 : ModelsA h2 rhs asR vsR := by
    refine modelsA_frame hmR1 (fun b hb => ?_) hm2a.1
    refine hframe2 b (hRnotL b hb).1 ?_
    have := hRlt b hb
    rw [hTh]
    omega
  obtain ⟨h3, hdest, hwf3, hfr3, hframe3⟩ := destroy_spec hm2b
  have hThead_notin : T.head_ ∉ asT := by
    obtain ⟨_, snd, hs, hc, _⟩ := hmT
    exact head_notMem hs hc
  have hm3a : ModelsA h3 ⟨L.head_, T.size_⟩ asT vsR := by
    refine modelsA_frame hm2a (fun b hb => ?_) hwf3
    rcases List.mem_cons.mp hb with hb2 | hb2
    · subst hb2
      refine hframe3 _ (show L.head_ ≠ T.head_ by
          have := hLlt L.head_ (by simp); rw [hTh]; omega) ?_
      obtain ⟨_, snd, hs, hc, _⟩ := hmL
      exact head_notMem hs hc
    · refine hframe3 _ (fun hx => hThead_notin (hx ▸ hb2)) ?_
      intro hx
      have h1b := hmemT b hb2
      have h2b := hLlt b (by simp [hx])
      omega
  have hmR3 : ModelsA h3 rhs asR vsR := by
    refine modelsA_frame hmR2 (fun b hb => ?_) hwf3
    refine hframe3 _ (show b ≠ T.head_ by
        have := hRlt b hb; rw [hTh]; omega) ?_
    exact (hRnotL b hb).2
  have hTsz : T.size_ = vsR.length := by
    obtain ⟨_, _, _, hc, hs⟩ := hmT
    exact hs
  refine ⟨h3, ⟨L.head_, T.size_⟩, asT, ?_, rfl, hTsz, hm3a, hmR3, hmemT, ?_⟩
  · simp only [operatorAssign, if_neg hne, hcopy, hswap, hdest]
    rfl
  · rw [hfr3, hfr2]
    exact hfr1

theorem chainSeg_vals_nil_inv {α : Type} {h : Heap α} {p : Ptr}
    {as : List Nat} (hc : ChainSeg h p as ([] : List α) none) : p = none := by
  cases as with
  | nil => exact (chainSeg_nil_inv hc).2
  | cons a ast =>
    obtain ⟨_, nd, vs0, _, hveq, _⟩ := chainSeg_cons_inv hc
    exact absurd hveq (by simp)

theorem chainSeg_vals_cons_inv {α : Type} {h : Heap α} {p : Ptr}
    {as : List Nat} {v : α} {vst : List α}
    (hc : ChainSeg h p as (v :: vst) none) :
    ∃ a ast nd, as = a :: ast ∧ p = some a ∧ h.mem a = some nd ∧
      nd.value = v ∧ ChainSeg h nd.next_node ast vst none := by
  cases as with
  | nil =>
    obtain ⟨hv, _⟩ := chainSeg_nil_inv hc
    exact absurd hv (by simp)
  | cons a ast =>
    obtain ⟨hp, nd, vs0, hmm, hveq, hrest⟩ := chainSeg_cons_inv hc
    injection hveq with h1 h2
    exact ⟨a, ast, nd, rfl, hp, hmm, h1.symm, by rw [h2]; exact hrest⟩

theorem eqRange_spec {α : Type} [DecidableEq α] {h : Heap α} :
    ∀ {vs ws : List α} {as bs : List Nat} {p q : Ptr} {fuel : Nat},
    ChainSeg h p as vs none → ChainSeg h q bs ws none → vs.length ≤ fuel →
    eqRange h fuel p q = some (decide (vs = ws)) := by
  intro vs
  induction vs with
  | nil =>
    intro ws as bs p q fuel hc1 hc2 _
    have hp := chainSeg_vals_nil_inv hc1
    subst hp
    cases ws with
    | nil =>
      have hq := chainSeg_vals_nil_inv hc2
      subst hq
      cases fuel <;> rfl
    | cons w wst =>
      obtain ⟨b, bst, ndb, hbs, hq, _, _, _⟩ := chainSeg_vals_cons_inv hc2
      subst hq
      cases fuel <;> simp [eqRange]
  | cons v vst ih =>
    intro ws as bs p q fuel hc1 hc2 hfuel
    obtain ⟨a, ast, nda, has, hp, hma, hva, hrest1⟩ :=
      chainSeg_vals_cons_inv hc1
    subst hp
    cases ws with
    | nil =>
      have hq := chainSeg_vals_nil_inv hc2
      subst hq
      cases fuel <;> simp [eqRange]
    | cons w wst =>
      obtain ⟨b, bst, ndb, hbs, hq, hmb, hvb, hrest2⟩ :=
        chainSeg_vals_cons_inv hc2
      subst hq
      cases fuel with
      | zero => simp at hfuel
      | succ f =>
        have hlen : vst.length ≤ f := by
          simp only [List.length_cons] at hfuel
          omega
        subst hva hvb
        simp only [eqRange, hma, hmb]
        by_cases hvw : nda.value = ndb.value
        · rw [if_pos hvw, ih hrest1 hrest2 hlen]
          simp [hvw]
        · rw [if_neg hvw]
          simp [hvw]

theorem lexCompare_spec {α : Type} [LinearOrder α] {h : Heap α} :
    ∀ {vs ws : List α} {as bs : List Nat} {p q : Ptr} {fuel : Nat},
    ChainSeg h p as vs none → ChainSeg h q bs ws none →
    min vs.length ws.length ≤ fuel →
    lexCompare h fuel p q =
      some (decide (List.Lex (· < ·) vs ws)) := by
  intro vs
  induction vs with
  | nil =>
    intro ws as bs p q fuel hc1 hc2 _
    have hp := chainSeg_vals_nil_inv hc1
    subst hp
    cases ws with
    | nil =>
      have hq := chainSeg_vals_nil_inv hc2
      subst hq
      have hnl : ¬ List.Lex (· < ·) ([] : List α) [] :=
        List.Lex.not_nil_right _ _
      cases fuel <;> simp [lexCompare, hnl]
    | cons w wst =>
      obtain ⟨b, bst, ndb, hbs, hq, _, _, _⟩ := chainSeg_vals_cons_inv hc2
      subst hq
      have hl : List.Lex (· < ·) ([] : List α) (w :: wst) := List.Lex.nil
      cases fuel <;> simp [lexCompare, hl]
  | cons v vst ih =>
    intro ws as bs p q fuel hc1 hc2 hfuel
    obtain ⟨a, ast, nda, has, hp, hma, hva, hrest1⟩ :=
      chainSeg_vals_cons_inv hc1
    subst hp
    cases ws with
    | nil =>
      have hq := chainSeg_vals_nil_inv hc2
      subst hq
      have hnl : ¬ List.Lex (· < ·) (v :: vst) [] :=
        List.Lex.not_nil_right _ _
      cases fuel <;> simp [lexCompare, hnl]
    | cons w wst =>
      obtain ⟨b, bst, ndb, hbs, hq, hmb, hvb, hrest2⟩ :=
        chainSeg_vals_cons_inv hc2
      subst hq
      cases fuel with
      | zero =>
        simp only [List.length_cons] at hfuel
        omega
      | succ f =>
        have hlen : min vst.length wst.length ≤ f := by
          simp only [List.length_cons] at hfuel
          omega
        subst hva hvb
        simp only [lexCompare, hma, hmb]
        rcases lt_trichotomy nda.value ndb.value with hlt | heq | hgt
        · rw [if_pos hlt]
          have hl : List.Lex (· < ·) (nda.value :: vst) (ndb.value :: wst) :=
            List.Lex.rel hlt
          simp [hl]
        · rw [if_neg (by rw [heq]; exact lt_irrefl _),
            if_neg (by rw [heq]; exact lt_irrefl _), ih hrest1 hrest2 hlen]
          rw [heq]
          simp [List.Lex.cons_iff]
        · rw [if_neg (lt_asymm hgt), if_pos hgt]
          have hnl : ¬ List.Lex (· < ·) (nda.value :: vst)
              (ndb.value :: wst) := asymm (List.Lex.rel hgt)
          simp [hnl]

theorem not_lex_iff {α : Type} [LinearOrder α] (vs ws : List α) :
    ¬ List.Lex (· < ·) ws vs ↔ (vs = ws ∨ List.Lex (· < ·) vs ws) := by
  haveI : IsTrichotomous α (· < ·) := ⟨lt_trichotomy⟩
  constructor
  · intro hn
    rcases trichotomous_of (List.Lex (· < ·)) vs ws with hlt | heq | hgt
    · exact Or.inr hlt
    · exact Or.inl heq
    · exact absurd hgt hn
  · rintro (rfl | hlt)
    · exact fun hx => (asymm hx) hx
    · exact asymm hlt

theorem pushFront_eq_insertAfter {α : Type} (h : Heap α)
    (L : SingleLinkedList) (v : α) :
    PushFront h L v =
      (InsertAfter h L (before_begin L) v).map fun r => (r.1, r.2.1) := by
  cases hm : h.mem L.head_ with
  | none => simp [PushFront, InsertAfter, before_begin, hm]
  | some snd => simp [PushFront, InsertAfter, before_begin, hm]

theorem popFront_eq_eraseAfter {α : Type} {h : Heap α} {L : SingleLinkedList}
    {as : List Nat} {vs : List α}
    (hm : ModelsA h L as vs) (hne : vs ≠ []) :
    PopFront h L =
      (EraseAfter h L (before_begin L)).map (fun r => (r.1, r.2.1)) ∧
    ∃ h2 L2, PopFront h L = some (h2, L2) := by
  obtain ⟨hwf, snd, hsnd, hchain, hsize⟩ := hm
  cases vs with
  | nil => exact absurd rfl hne
  | cons v vst =>
    obtain ⟨d, ast, dnd, has, hptr, hdm, hvd, hrest⟩ :=
      chainSeg_vals_cons_inv hchain
    have hhdas : L.head_ ∉ as := head_notMem hsnd hchain
    have hhd1 : L.head_ ≠ d := fun hx => hhdas (by simp [has, hx])
    constructor
    · simp only [PopFront, EraseAfter, before_begin, hsnd, hptr, hdm]
      rw [mem_free_ne _ hhd1, mem_write_self]
      rfl
    · exact ⟨(h.write L.head_ ⟨snd.value, dnd.next_node⟩).free d,
        ⟨L.head_, L.size_ - 1⟩, by simp only [PopFront, hsnd, hptr, hdm]⟩

theorem exHeap_wf : exHeap.WF := by
  intro a ha
  have ha7 : 7 ≤ a := ha
  show (if a = 0 then _ else _) = none
  rw [if_neg (by omega), if_neg (by omega), if_neg (by omega),
    if_neg (by omega), if_neg (by omega), if_neg (by omega),
    if_neg (by omega)]

theorem exA_models : ModelsA exHeap exA [1, 2, 3] [10, 20, 30] := by
  refine ⟨exHeap_wf, ⟨0, some 1⟩, rfl, ?_, rfl⟩
  exact .cons 1 ⟨10, some 2⟩ _ _ none rfl
    (.cons 2 ⟨20, some 3⟩ _ _ none rfl
      (.cons 3 ⟨30, none⟩ _ _ none rfl (.nil none)))

theorem exB_models : ModelsA exHeap exB [5, 6] [10, 25] := by
  refine ⟨exHeap_wf, ⟨0, some 5⟩, rfl, ?_, rfl⟩
  exact .cons 5 ⟨10, some 6⟩ _ _ none rfl
    (.cons 6 ⟨25, none⟩ _ _ none rfl (.nil none))

/-! ### The claims -/

/-- C1: for every finite sequence S of values, constructing a
SingleLinkedList from S (the initializer-list constructor, which routes
through InitFromForwardRange and therefore covers any forward-traversable
source whose value sequence is S) and then traversing from begin() to
end() yields exactly the elements of S in the same front-to-back order. -/
theorem claim1_construct_traverse {α : Type} [Inhabited α] (h : Heap α)
    (S : List α) (hwf : h.WF) :
    ∃ h2 L, ofValues h S = some (h2, L) ∧
      ∃ it, beginIt h2 L = some it ∧
        readList h2 S.length it.node_ = some S ∧
        GetSize L = S.length := by
  obtain ⟨h2, L, as, hall, hm, _, _, _, _⟩ := ofValues_spec S hwf
  obtain ⟨hwf2, snd, hsnd, hchain, hsize⟩ := hm
  refine ⟨h2, L, hall, ⟨snd.next_node⟩, ?_, ?_, hsize⟩
  · simp [beginIt, hsnd]
  · exact readList_of_chainSeg hchain le_rfl

/-- Witness for C1: building a list from the concrete sequence
[1, 2, 3] in the empty heap and traversing it. -/
theorem claim1_witness :
    ∃ h2 L, ofValues (Heap.empty Int) [1, 2, 3] = some (h2, L) ∧
      ∃ it, beginIt h2 L = some it ∧
        readList h2 ([1, 2, 3] : List Int).length it.node_ =
          some [1, 2, 3] ∧
        GetSize L = ([1, 2, 3] : List Int).length :=
  claim1_construct_traverse (Heap.empty Int) [1, 2, 3] (fun _ _ => rfl)

/-- C2: for every reachable list state the size counter equals the number
of real (non-sentinel) nodes reachable from the sentinel and the chain is
acyclic and null-terminated (this is exactly `Inv`: a finite
`ChainSeg … none` of length `size_`); every public operation —
construction, InsertAfter, EraseAfter, PushFront, PopFront, Clear, swap,
and copy assignment — establishes or preserves this invariant. -/
theorem claim2_invariant_preservation {α : Type} [Inhabited α] :
    (∀ (h : Heap α) (S : List α), h.WF →
      ∃ h2 L, ofValues h S = some (h2, L) ∧ Inv h2 L) ∧
    (∀ (h : Heap α) (L : SingleLinkedList) as vs pos p v as1 as2,
      ModelsA h L as vs → pos.node_ = some p →
      L.head_ :: as = as1 ++ p :: as2 →
      ∃ h2 L2 it, InsertAfter h L pos v = some (h2, L2, it) ∧ Inv h2 L2) ∧
    (∀ (h : Heap α) (L : SingleLinkedList) as vs pos p d as1 as2,
      ModelsA h L as vs → pos.node_ = some p →
      L.head_ :: as = as1 ++ p :: d :: as2 →
      ∃ h2 L2 it, EraseAfter h L pos = some (h2, L2, it) ∧ Inv h2 L2) ∧
    (∀ (h : Heap α) (L : SingleLinkedList) as vs v, ModelsA h L as vs →
      ∃ h2 L2, PushFront h L v = some (h2, L2) ∧ Inv h2 L2) ∧
    (∀ (h : Heap α) (L : SingleLinkedList) as vs d ast,
      ModelsA h L as vs → as = d :: ast →
      ∃ h2 L2, PopFront h L = some (h2, L2) ∧ Inv h2 L2) ∧
    (∀ (h : Heap α) (L : SingleLinkedList) as vs, ModelsA h L as vs →
      ∃ h2 L2, Clear h L = some (h2, L2) ∧ Inv h2 L2) ∧
    (∀ (h : Heap α) (L1 L2 : SingleLinkedList) as1 vs1 as2 vs2,
      ModelsA h L1 as1 vs1 → ModelsA h L2 as2 vs2 →
      (∀ b ∈ L1.head_ :: as1, b ∉ L2.head_ :: as2) →
      ∃ h2 L1b L2b, swapLists h L1 L2 = some (h2, L1b, L2b) ∧
        Inv h2 L1b ∧ Inv h2 L2b) ∧
    (∀ (h : Heap α) (L rhs : SingleLinkedList) asL vsL asR vsR,
      ModelsA h L asL vsL → ModelsA h rhs asR vsR →
      (∀ b ∈ L.head_ :: asL, b ∉ rhs.head_ :: asR) →
      ∃ h2 L2, operatorAssign h L rhs vsR.length = some (h2, L2) ∧
        Inv h2 L2 ∧ Inv h2 rhs) := by
  refine ⟨?_, ?_, ?_, ?_, ?_, ?_, ?_, ?_⟩
  · intro h S hwf
    obtain ⟨h2, L, as, hall, hm, _⟩ := ofValues_spec S hwf
    exact ⟨h2, L, hall, as, S, hm⟩
  · intro h L as vs pos p v as1 as2 hm hpos hsplit
    obtain ⟨h2, it, heq, _, _, ⟨as3, _, hm2⟩, _, _⟩ :=
      insertAfter_spec v hm hpos hsplit
    exact ⟨h2, _, it, heq, as3, _, hm2⟩
  · intro h L as vs pos p d as1 as2 hm hpos hsplit
    obtain ⟨h2, it, heq, _, ⟨as3, _, hm2⟩, _, _, _⟩ :=
      eraseAfter_spec hm hpos hsplit
    exact ⟨h2, _, it, heq, as3, _, hm2⟩
  · intro h L as vs v hm
    obtain ⟨h2, heq, hm2, _, _⟩ := pushFront_spec v hm
    exact ⟨h2, _, heq, _, _, hm2⟩
  · intro h L as vs d ast hm hd
    obtain ⟨h2, heq, hm2, _, _, _, _⟩ := popFront_spec hm hd
    exact ⟨h2, _, heq, _, _, hm2⟩
  · intro h L as vs hm
    obtain ⟨h2, heq, hm2, _, _⟩ := clear_spec hm
    exact ⟨h2, _, heq, _, _, hm2⟩
  · intro h L1 L2 as1 vs1 as2 vs2 hm1 hm2 hdisj
    obtain ⟨h2, heq, hm2a, hm2b, _, _⟩ := swap_spec hm1 hm2 hdisj
    exact ⟨h2, _, _, heq, ⟨_, _, hm2a⟩, ⟨_, _, hm2b⟩⟩
  · intro h L rhs asL vsL asR vsR hmL hmR hdisj
    obtain ⟨h2, L2, as2, heq, _, _, hm2, hmR2, _, _⟩ :=
      operatorAssign_spec hmL hmR hdisj le_rfl
    exact ⟨h2, L2, heq, ⟨as2, _, hm2⟩, ⟨asR, vsR, hmR2⟩⟩

/-- Witness for C2: the PushFront, PopFront and swap conjuncts applied to
the concrete lists of `exHeap`. -/
theorem claim2_witness :
    (∃ h2 L2, PushFront exHeap exA (5 : Int) = some (h2, L2) ∧ Inv h2 L2) ∧
    (∃ h2 L2, PopFront exHeap exA = some (h2, L2) ∧ Inv h2 L2) ∧
    (∃ h2 L1b L2b, swapLists exHeap exA exB = some (h2, L1b, L2b) ∧
      Inv h2 L1b ∧ Inv h2 L2b) :=
  ⟨(@claim2_invariant_preservation Int _).2.2.2.1 exHeap exA
      [1, 2, 3] [10, 20, 30] 5 exA_models,
   (@claim2_invariant_preservation Int _).2.2.2.2.1 exHeap exA
      [1, 2, 3] [10, 20, 30] 1 [2, 3] exA_models rfl,
   (@claim2_invariant_preservation Int _).2.2.2.2.2.2.1 exHeap exA exB
      [1, 2, 3] [10, 20, 30] [5, 6] [10, 25] exA_models exB_models
      (by decide)⟩

/-- C3: for every list L and position pos referencing a live node of L
(sentinel or real, expressed by the split of the sentinel-plus-chain
address list at p), InsertAfter(pos, value) inserts value immediately
after pos's element (at the front when pos is before_begin, i.e.
as1 = []), increments the size by exactly 1, leaves all other elements
and their order unchanged, and returns a position referencing the newly
inserted node. -/
theorem claim3_insertAfter {α : Type} {h : Heap α} {L : SingleLinkedList}
    {as as1 as2 : List Nat} {vs : List α} {pos : BasicIterator} {p : Nat}
    (v : α) (hm : ModelsA h L as vs) (hpos : pos.node_ = some p)
    (hsplit : L.head_ :: as = as1 ++ p :: as2) :
    ∃ h2 L2 it, InsertAfter h L pos v = some (h2, L2, it) ∧
      GetSize L2 = GetSize L + 1 ∧
      it.node_ = some h.next_fresh ∧
      (∃ nd, h2.mem h.next_fresh = some nd ∧ nd.value = v) ∧
      (∃ as3, L.head_ :: as3 = as1 ++ p :: h.next_fresh :: as2 ∧
        ModelsA h2 L2 as3
          (vs.take as1.length ++ v :: vs.drop as1.length)) := by
  obtain ⟨h2, it, heq, hit, hnode, ⟨as3, hsp3, hm2⟩, _, _⟩ :=
    insertAfter_spec v hm hpos hsplit
  exact ⟨h2, _, it, heq, rfl, hit, hnode, as3, hsp3, hm2⟩

/-- Witness for C3: inserting 5 after the second node (address 2, value
20) of the concrete list [10, 20, 30]. -/
theorem claim3_witness :
    ∃ h2 L2 it, InsertAfter exHeap exA ⟨some 2⟩ (5 : Int) =
        some (h2, L2, it) ∧
      GetSize L2 = GetSize exA + 1 ∧
      it.node_ = some exHeap.next_fresh ∧
      (∃ nd, h2.mem exHeap.next_fresh = some nd ∧ nd.value = 5) ∧
      (∃ as3, exA.head_ :: as3 = [0, 1] ++ 2 :: exHeap.next_fresh :: [3] ∧
        ModelsA h2 L2 as3
          (([10, 20, 30] : List Int).take ([0, 1] : List Nat).length ++
            5 :: ([10, 20, 30] : List Int).drop ([0, 1] : List Nat).length)) :=
  claim3_insertAfter 5 exA_models rfl rfl

/-- C4: for every list L and position pos of L whose successor node
exists (the split exhibits the successor address d), EraseAfter(pos)
removes exactly the element immediately after pos, decrements the size by
exactly 1, and returns a position referencing the node now following pos,
or the end position (null) if no node follows. -/
theorem claim4_eraseAfter {α : Type} {h : Heap α} {L : SingleLinkedList}
    {as as1 as2 : List Nat} {vs : List α} {pos : BasicIterator} {p d : Nat}
    (hm : ModelsA h L as vs) (hpos : pos.node_ = some p)
    (hsplit : L.head_ :: as = as1 ++ p :: d :: as2) :
    ∃ h2 L2 it, EraseAfter h L pos = some (h2, L2, it) ∧
      GetSize L = GetSize L2 + 1 ∧
      it.node_ = as2.head? ∧
      (∃ as3, L.head_ :: as3 = as1 ++ p :: as2 ∧
        ModelsA h2 L2 as3
          (vs.take as1.length ++ vs.drop (as1.length + 1))) := by
  obtain ⟨h2, it, heq, hit, ⟨as3, hsp3, hm2⟩, hsz, _, _⟩ :=
    eraseAfter_spec hm hpos hsplit
  refine ⟨h2, _, it, heq, ?_, hit, as3, hsp3, hm2⟩
  show L.size_ = L.size_ - 1 + 1
  omega

/-- Witness for C4: erasing the node after the first node (address 1,
value 10) of the concrete list [10, 20, 30]; the removed element is 20
and the returned position references address 3 (value 30). -/
theorem claim4_witness :
    ∃ h2 L2 it, EraseAfter exHeap exA ⟨some 1⟩ = some (h2, L2, it) ∧
      GetSize exA = GetSize L2 + 1 ∧
      it.node_ = ([3] : List Nat).head? ∧
      (∃ as3, exA.head_ :: as3 = [0] ++ 1 :: [3] ∧
        ModelsA h2 L2 as3
          (([10, 20, 30] : List Int).take ([0] : List Nat).length ++
            ([10, 20, 30] : List Int).drop (([0] : List Nat).length + 1))) :=
  claim4_eraseAfter exA_models rfl rfl

/-- C5: PushFront(value) leaves the heap and the list object in exactly
the state produced by InsertAfter(before_begin(), value) (discarding the
returned iterator), and on every non-empty well-formed list PopFront()
leaves them in exactly the state produced by
EraseAfter(before_begin()). -/
theorem claim5_front_ops_equiv {α : Type} :
    (∀ (h : Heap α) (L : SingleLinkedList) (v : α),
      PushFront h L v =
        (InsertAfter h L (before_begin L) v).map fun r => (r.1, r.2.1)) ∧
    (∀ (h : Heap α) (L : SingleLinkedList) (as : List Nat) (vs : List α),
      ModelsA h L as vs → vs ≠ [] →
      PopFront h L =
        (EraseAfter h L (before_begin L)).map (fun r => (r.1, r.2.1)) ∧
      ∃ h2 L2, PopFront h L = some (h2, L2)) :=
  ⟨pushFront_eq_insertAfter,
   fun _ _ _ _ hm hne => popFront_eq_eraseAfter hm hne⟩

/-- Witness for C5: both equivalences at the concrete list [10, 20, 30]. -/
theorem claim5_witness :
    (PushFront exHeap exA (5 : Int) =
      (InsertAfter exHeap exA (before_begin exA) 5).map
        fun r => (r.1, r.2.1)) ∧
    (PopFront exHeap exA =
      (EraseAfter exHeap exA (before_begin exA)).map
        (fun r => (r.1, r.2.1)) ∧
     ∃ h2 L2, PopFront exHeap exA = some (h2, L2)) :=
  ⟨claim5_front_ops_equiv.1 exHeap exA 5,
   claim5_front_ops_equiv.2 exHeap exA [1, 2, 3] [10, 20, 30] exA_models
     (by decide)⟩

/-- C6: copy construction, and copy assignment from L into any other
list object, produce a list L2 with L == L2 (equal elements in equal
order and equal size, and the == operator of the source returns true),
sharing no nodes with L, so that any subsequent mutation of L2 through
its own live positions (PushFront, PopFront, InsertAfter, EraseAfter,
Clear) leaves L's element sequence and size unchanged. -/
theorem claim6_copy_independence {α : Type} [Inhabited α] [DecidableEq α]
    {h : Heap α} {L : SingleLinkedList} {as : List Nat} {vs : List α}
    (hm : ModelsA h L as vs) :
    (∃ h2 L2 as2, copyCtor h L vs.length = some (h2, L2) ∧
      ModelsA h2 L2 as2 vs ∧
      GetSize L2 = GetSize L ∧
      operatorEq h2 L L2 vs.length = some true ∧
      (∀ b ∈ L2.head_ :: as2, b ∉ L.head_ :: as) ∧
      ModelsA h2 L as vs ∧
      (∀ v, ∃ h3 L3, PushFront h2 L2 v = some (h3, L3) ∧
        ModelsA h3 L as vs) ∧
      (∀ d ast, as2 = d :: ast →
        ∃ h3 L3, PopFront h2 L2 = some (h3, L3) ∧ ModelsA h3 L as vs) ∧
      (∀ (pos : BasicIterator) p v bs1 bs2, pos.node_ = some p →
        L2.head_ :: as2 = bs1 ++ p :: bs2 →
        ∃ h3 L3 it, InsertAfter h2 L2 pos v = some (h3, L3, it) ∧
          ModelsA h3 L as vs) ∧
      (∀ (pos : BasicIterator) p d bs1 bs2, pos.node_ = some p →
        L2.head_ :: as2 = bs1 ++ p :: d :: bs2 →
        ∃ h3 L3 it, EraseAfter h2 L2 pos = some (h3, L3, it) ∧
          ModelsA h3 L as vs) ∧
      (∃ h3 L3, Clear h2 L2 = some (h3, L3) ∧ ModelsA h3 L as vs)) ∧
    (∀ (X : SingleLinkedList) (asX : List Nat) (vsX : List α),
      ModelsA h X asX vsX →
      (∀ b ∈ X.head_ :: asX, b ∉ L.head_ :: as) →
      ∃ h3 L2 as3, operatorAssign h X L vs.length = some (h3, L2) ∧
        ModelsA h3 L2 as3 vs ∧
        GetSize L2 = GetSize L ∧
        operatorEq h3 L L2 vs.length = some true ∧
        (∀ b ∈ L2.head_ :: as3, b ∉ L.head_ :: as) ∧
        ModelsA h3 L as vs ∧
        (∀ v, ∃ h4 L4, PushFront h3 L2 v = some (h4, L4) ∧
          ModelsA h4 L as vs) ∧
        (∀ d ast, as3 = d :: ast →
          ∃ h4 L4, PopFront h3 L2 = some (h4, L4) ∧ ModelsA h4 L as vs) ∧
        (∀ (pos : BasicIterator) p v bs1 bs2, pos.node_ = some p →
          L2.head_ :: as3 = bs1 ++ p :: bs2 →
          ∃ h4 L4 it, InsertAfter h3 L2 pos v = some (h4, L4, it) ∧
            ModelsA h4 L as vs) ∧
        (∀ (pos : BasicIterator) p d bs1 bs2, pos.node_ = some p →
          L2.head_ :: as3 = bs1 ++ p :: d :: bs2 →
          ∃ h4 L4 it, EraseAfter h3 L2 pos = some (h4, L4, it) ∧
            ModelsA h4 L as vs) ∧
        (∃ h4 L4, Clear h3 L2 = some (h4, L4) ∧ ModelsA h4 L as vs)) := by
  refine ⟨?_, ?_⟩
  · obtain ⟨h2, L2, as2, hcopy, hmL2, hmLsrc, hL2h, hfr, hframe, hmem2⟩ :=
      copyCtor_spec hm le_rfl
    have hLlt : ∀ b ∈ L.head_ :: as, b < h.next_fresh := modelsA_lt_fresh hm
    have hR : ∀ x ∈ L2.head_ :: as2, h.next_fresh ≤ x := by
      intro x hx
      rcases List.mem_cons.mp hx with hx2 | hx2
      · rw [hx2, hL2h]
      · exact hmem2 x hx2
    have hdisj : ∀ b ∈ L2.head_ :: as2, b ∉ L.head_ :: as := by
      intro b hb hbL
      have h1 := hLlt b hbL
      have h2b := hR b hb
      omega
    have heqop : operatorEq h2 L L2 vs.length = some true := by
      obtain ⟨hwf2, snd, hsnd, hchain, hsize⟩ := hmLsrc
      obtain ⟨_, snd2, hsnd2, hchain2, hsize2⟩ := hmL2
      simp only [operatorEq, hsnd, hsnd2]
      rw [eqRange_spec hchain hchain2 le_rfl]
      simp
    have hgs : GetSize L2 = GetSize L := by
      show L2.size_ = L.size_
      rw [hmL2.2.choose_spec.2.2, hmLsrc.2.choose_spec.2.2]
    refine ⟨h2, L2, as2, hcopy, hmL2, hgs, heqop, hdisj, hmLsrc,
      ?_, ?_, ?_, ?_, ?_⟩
    · intro v
      obtain ⟨h3, heq3, hm3, _, hframe3⟩ := pushFront_spec v hmL2
      refine ⟨h3, _, heq3, modelsA_frame hmLsrc (fun b hb => ?_) hm3.1⟩
      have h1 := hLlt b hb
      refine hframe3 b (by have := hR L2.head_ (by simp); omega) (by omega)
    · intro d ast hd
      obtain ⟨h3, heq3, hm3, _, _, _, hframe3⟩ := popFront_spec hmL2 hd
      refine ⟨h3, _, heq3, modelsA_frame hmLsrc (fun b hb => ?_) hm3.1⟩
      have h1 := hLlt b hb
      have h2d : h.next_fresh ≤ d := hmem2 d (by simp [hd])
      refine hframe3 b (by have := hR L2.head_ (by simp); omega) (by omega)
    · intro pos p v bs1 bs2 hpos hsplit
      obtain ⟨h3, it, heq3, _, _, ⟨as3, _, hm3⟩, _, hframe3⟩ :=
        insertAfter_spec v hmL2 hpos hsplit
      refine ⟨h3, _, it, heq3,
        modelsA_frame hmLsrc (fun b hb => ?_) hm3.1⟩
      have h1 := hLlt b hb
      have hp : h.next_fresh ≤ p := hR p (by rw [hsplit]; simp)
      exact hframe3 b (by omega) (by omega)
    · intro pos p d bs1 bs2 hpos hsplit
      obtain ⟨h3, it, heq3, _, ⟨as3, _, hm3⟩, _, _, hframe3⟩ :=
        eraseAfter_spec hmL2 hpos hsplit
      refine ⟨h3, _, it, heq3,
        modelsA_frame hmLsrc (fun b hb => ?_) hm3.1⟩
      have h1 := hLlt b hb
      have hp : h.next_fresh ≤ p := hR p (by rw [hsplit]; simp)
      have hd : h.next_fresh ≤ d := hR d (by rw [hsplit]; simp)
      exact hframe3 b (by omega) (by omega)
    · obtain ⟨h3, heq3, hm3, _, hframe3⟩ := clear_spec hmL2
      refine ⟨h3, _, heq3, modelsA_frame hmLsrc (fun b hb => ?_) hm3.1⟩
      have h1 := hLlt b hb
      refine hframe3 b (by have := hR L2.head_ (by simp); omega) ?_
      intro hx
      have := hmem2 b hx
      omega
  · intro X asX vsX hmX hdisjX
    obtain ⟨h3, L2, as3, heq, hL2h, hL2sz, hmL2, hmLs, hmem3, hfr3⟩ :=
      operatorAssign_spec hmX hm hdisjX le_rfl
    have hLlt : ∀ b ∈ L.head_ :: as, b < h.next_fresh := modelsA_lt_fresh hm
    have hLneX : ∀ b ∈ L.head_ :: as, b ≠ X.head_ := by
      intro b hb hx
      exact hdisjX X.head_ (by simp) (by rw [← hx]; exact hb)
    have hbx : ∀ x ∈ L2.head_ :: as3, ∀ b ∈ L.head_ :: as, b ≠ x := by
      intro x hx b hb
      rcases List.mem_cons.mp hx with hx2 | hx2
      · rw [hx2, hL2h]
        exact hLneX b hb
      · have h1 := hmem3 x hx2
        have h2b := hLlt b hb
        omega
    have hdisj2 : ∀ b ∈ L2.head_ :: as3, b ∉ L.head_ :: as := by
      intro b hb hbL
      exact hbx b hb b hbL rfl
    have heqop : operatorEq h3 L L2 vs.length = some true := by
      obtain ⟨hwf3, sndL, hsndL, hchainL, _⟩ := hmLs
      obtain ⟨_, sndC, hsndC, hchainC, _⟩ := hmL2
      simp only [operatorEq, hsndL, hsndC]
      rw [eqRange_spec hchainL hchainC le_rfl]
      simp
    have hgs : GetSize L2 = GetSize L := by
      show L2.size_ = L.size_
      rw [hL2sz, hm.2.choose_spec.2.2]
    refine ⟨h3, L2, as3, heq, hmL2, hgs, heqop, hdisj2, hmLs,
      ?_, ?_, ?_, ?_, ?_⟩
    · intro v
      obtain ⟨h4, heq4, hm4, _, hframe4⟩ := pushFront_spec v hmL2
      refine ⟨h4, _, heq4, modelsA_frame hmLs (fun b hb => ?_) hm4.1⟩
      have h1 := hLlt b hb
      exact hframe4 b (hbx L2.head_ (by simp) b hb) (by omega)
    · intro d ast hd
      obtain ⟨h4, heq4, hm4, _, _, _, hframe4⟩ := popFront_spec hmL2 hd
      refine ⟨h4, _, heq4, modelsA_frame hmLs (fun b hb => ?_) hm4.1⟩
      exact hframe4 b (hbx L2.head_ (by simp) b hb)
        (hbx d (by simp [hd]) b hb)
    · intro pos p v bs1 bs2 hpos hsplit
      obtain ⟨h4, it, heq4, _, _, ⟨as4, _, hm4⟩, _, hframe4⟩ :=
        insertAfter_spec v hmL2 hpos hsplit
      refine ⟨h4, _, it, heq4,
        modelsA_frame hmLs (fun b hb => ?_) hm4.1⟩
      have h1 := hLlt b hb
      exact hframe4 b (hbx p (by rw [hsplit]; simp) b hb) (by omega)
    · intro pos p d bs1 bs2 hpos hsplit
      obtain ⟨h4, it, heq4, _, ⟨as4, _, hm4⟩, _, _, hframe4⟩ :=
        eraseAfter_spec hmL2 hpos hsplit
      refine ⟨h4, _, it, heq4,
        modelsA_frame hmLs (fun b hb => ?_) hm4.1⟩
      exact hframe4 b (hbx p (by rw [hsplit]; simp) b hb)
        (hbx d (by rw [hsplit]; simp) b hb)
    · obtain ⟨h4, heq4, hm4, _, hframe4⟩ := clear_spec hmL2
      refine ⟨h4, _, heq4, modelsA_frame hmLs (fun b hb => ?_) hm4.1⟩
      refine hframe4 b (hbx L2.head_ (by simp) b hb) ?_
      intro hx
      have h1 := hmem3 b hx
      have h2b := hLlt b hb
      omega

/-- Witness for C6: copying the concrete list [10, 20, 30], and
copy-assigning it into the disjoint concrete list [10, 25]. -/
theorem claim6_witness :
    (∃ h2 L2 as2,
      copyCtor exHeap exA ([10, 20, 30] : List Int).length =
        some (h2, L2) ∧
      ModelsA h2 L2 as2 [10, 20, 30] ∧
      GetSize L2 = GetSize exA ∧
      operatorEq h2 exA L2 ([10, 20, 30] : List Int).length = some true ∧
      (∀ b ∈ L2.head_ :: as2, b ∉ exA.head_ :: [1, 2, 3]) ∧
      ModelsA h2 exA [1, 2, 3] [10, 20, 30] ∧
      (∀ v, ∃ h3 L3, PushFront h2 L2 v = some (h3, L3) ∧
        ModelsA h3 exA [1, 2, 3] [10, 20, 30]) ∧
      (∀ d ast, as2 = d :: ast →
        ∃ h3 L3, PopFront h2 L2 = some (h3, L3) ∧
          ModelsA h3 exA [1, 2, 3] [10, 20, 30]) ∧
      (∀ (pos : BasicIterator) p v bs1 bs2, pos.node_ = some p →
        L2.head_ :: as2 = bs1 ++ p :: bs2 →
        ∃ h3 L3 it, InsertAfter h2 L2 pos v = some (h3, L3, it) ∧
          ModelsA h3 exA [1, 2, 3] [10, 20, 30]) ∧
      (∀ (pos : BasicIterator) p d bs1 bs2, pos.node_ = some p →
        L2.head_ :: as2 = bs1 ++ p :: d :: bs2 →
        ∃ h3 L3 it, EraseAfter h2 L2 pos = some (h3, L3, it) ∧
          ModelsA h3 exA [1, 2, 3] [10, 20, 30]) ∧
      (∃ h3 L3, Clear h2 L2 = some (h3, L3) ∧
        ModelsA h3 exA [1, 2, 3] [10, 20, 30])) ∧
    (∃ h3 L2 as3,
      operatorAssign exHeap exB exA ([10, 20, 30] : List Int).length =
        some (h3, L2) ∧
      ModelsA h3 L2 as3 [10, 20, 30] ∧
      GetSize L2 = GetSize exA ∧
      operatorEq h3 exA L2 ([10, 20, 30] : List Int).length = some true ∧
      (∀ b ∈ L2.head_ :: as3, b ∉ exA.head_ :: [1, 2, 3]) ∧
      ModelsA h3 exA [1, 2, 3] [10, 20, 30] ∧
      (∀ v, ∃ h4 L4, PushFront h3 L2 v = some (h4, L4) ∧
        ModelsA h4 exA [1, 2, 3] [10, 20, 30]) ∧
      (∀ d ast, as3 = d :: ast →
        ∃ h4 L4, PopFront h3 L2 = some (h4, L4) ∧
          ModelsA h4 exA [1, 2, 3] [10, 20, 30]) ∧
      (∀ (pos : BasicIterator) p v bs1 bs2, pos.node_ = some p →
        L2.head_ :: as3 = bs1 ++ p :: bs2 →
        ∃ h4 L4 it, InsertAfter h3 L2 pos v = some (h4, L4, it) ∧
          ModelsA h4 exA [1, 2, 3] [10, 20, 30]) ∧
      (∀ (pos : BasicIterator) p d bs1 bs2, pos.node_ = some p →
        L2.head_ :: as3 = bs1 ++ p :: d :: bs2 →
        ∃ h4 L4 it, EraseAfter h3 L2 pos = some (h4, L4, it) ∧
          ModelsA h4 exA [1, 2, 3] [10, 20, 30]) ∧
      (∃ h4 L4, Clear h3 L2 = some (h4, L4) ∧
        ModelsA h4 exA [1, 2, 3] [10, 20, 30])) :=
  ⟨(claim6_copy_independence exA_models).1,
   (claim6_copy_independence exA_models).2 exB [5, 6] [10, 25] exB_models
     (by decide)⟩

/-- C7: self-assignment (L = L, i.e. both operands are the same object,
identified by the address of the embedded sentinel) is a no-op: the heap
and the list object are returned unchanged, so the element sequence and
the size are those from before the assignment. -/
theorem claim7_self_assignment {α : Type} [Inhabited α] :
    (∀ (h : Heap α) (L : SingleLinkedList) (fuel : Nat),
      operatorAssign h L L fuel = some (h, L)) ∧
    (∀ (h : Heap α) (L : SingleLinkedList) (fuel : Nat)
      (as : List Nat) (vs : List α), ModelsA h L as vs →
      ∃ h2 L2, operatorAssign h L L fuel = some (h2, L2) ∧
        ModelsA h2 L2 as vs ∧ GetSize L2 = GetSize L) := by
  constructor
  · intro h L fuel
    simp [operatorAssign]
  · intro h L fuel as vs hm
    exact ⟨h, L, by simp [operatorAssign], hm, rfl⟩

/-- Witness for C7: self-assignment of the concrete list [10, 20, 30]. -/
theorem claim7_witness :
    operatorAssign exHeap exA exA 3 = some (exHeap, exA) ∧
    ∃ h2 L2, operatorAssign exHeap exA exA 3 = some (h2, L2) ∧
      ModelsA h2 L2 [1, 2, 3] [10, 20, 30] ∧ GetSize L2 = GetSize exA :=
  ⟨claim7_self_assignment.1 exHeap exA 3,
   claim7_self_assignment.2 exHeap exA 3 [1, 2, 3] [10, 20, 30] exA_models⟩

/-- C8: operator== returns true iff the two element sequences are equal
(same length and elementwise-equal values in the same order); in
particular two empty lists compare equal, and lists of different lengths
compare unequal even when one sequence is a prefix of the other. -/
theorem claim8_equality {α : Type} [DecidableEq α] {h : Heap α}
    {A B : SingleLinkedList} {as bs : List Nat} {vs ws : List α}
    (hmA : ModelsA h A as vs) (hmB : ModelsA h B bs ws) :
    operatorEq h A B A.size_ = some (decide (vs = ws)) ∧
    (operatorEq h A B A.size_ = some true ↔ vs = ws) ∧
    (vs = [] → ws = [] → operatorEq h A B A.size_ = some true) ∧
    (vs.length ≠ ws.length → operatorEq h A B A.size_ = some false) := by
  obtain ⟨hwf, snd, hsnd, hchain, hsize⟩ := hmA
  obtain ⟨_, snd2, hsnd2, hchain2, hsize2⟩ := hmB
  have hkey : operatorEq h A B A.size_ = some (decide (vs = ws)) := by
    simp only [operatorEq, hsnd, hsnd2]
    exact eqRange_spec hchain hchain2 (le_of_eq hsize.symm)
  refine ⟨hkey, ?_, ?_, ?_⟩
  · rw [hkey]
    simp
  · rintro rfl rfl
    rw [hkey]
    simp
  · intro hlen
    rw [hkey]
    have hne : vs ≠ ws := fun hx => hlen (by rw [hx])
    simp [hne]

/-- Witness for C8: comparing the concrete lists [10, 20, 30] and
[10, 25], which differ. -/
theorem claim8_witness :
    operatorEq exHeap exA exB exA.size_ =
      some (decide (([10, 20, 30] : List Int) = [10, 25])) ∧
    (operatorEq exHeap exA exB exA.size_ = some true ↔
      ([10, 20, 30] : List Int) = [10, 25]) ∧
    (([10, 20, 30] : List Int) = [] → ([10, 25] : List Int) = [] →
      operatorEq exHeap exA exB exA.size_ = some true) ∧
    (([10, 20, 30] : List Int).length ≠ ([10, 25] : List Int).length →
      operatorEq exHeap exA exB exA.size_ = some false) :=
  claim8_equality exA_models exB_models

/-- C9: the ordering operators implement lexicographic comparison of the
element sequences by elementwise less-than with the standard tie-break
that a strict prefix is smaller: < holds iff the left sequence is
lexicographically below the right one, <= iff the sequences are equal or
the left is below, and >, >= are the mirrored forms. -/
theorem claim9_lexicographic {α : Type} [LinearOrder α] {h : Heap α}
    {A B : SingleLinkedList} {as bs : List Nat} {vs ws : List α}
    (hmA : ModelsA h A as vs) (hmB : ModelsA h B bs ws) :
    (operatorLt h A B (A.size_ + B.size_) = some true ↔
      List.Lex (· < ·) vs ws) ∧
    (operatorLe h A B (A.size_ + B.size_) = some true ↔
      (vs = ws ∨ List.Lex (· < ·) vs ws)) ∧
    (operatorGt h A B (A.size_ + B.size_) = some true ↔
      List.Lex (· < ·) ws vs) ∧
    (operatorGe h A B (A.size_ + B.size_) = some true ↔
      (ws = vs ∨ List.Lex (· < ·) ws vs)) := by
  obtain ⟨hwf, snd, hsnd, hchain, hsize⟩ := hmA
  obtain ⟨_, snd2, hsnd2, hchain2, hsize2⟩ := hmB
  have hfuel : min vs.length ws.length ≤ A.size_ + B.size_ := by
    omega
  have hfuel2 : min ws.length vs.length ≤ A.size_ + B.size_ := by
    omega
  have hlt : operatorLt h A B (A.size_ + B.size_) =
      some (decide (List.Lex (· < ·) vs ws)) := by
    simp only [operatorLt, hsnd, hsnd2]
    exact lexCompare_spec hchain hchain2 hfuel
  have hltBA : operatorLt h B A (A.size_ + B.size_) =
      some (decide (List.Lex (· < ·) ws vs)) := by
    simp only [operatorLt, hsnd, hsnd2]
    exact lexCompare_spec hchain2 hchain hfuel2
  refine ⟨?_, ?_, ?_, ?_⟩
  · rw [hlt]
    simp
  · show (operatorLt h B A (A.size_ + B.size_)).map (fun b => !b) =
        some true ↔ _
    rw [hltBA]
    simp [not_lex_iff]
  · show operatorLt h B A (A.size_ + B.size_) = some true ↔ _
    rw [hltBA]
    simp
  · show (operatorLt h A B (A.size_ + B.size_)).map (fun b => !b) =
        some true ↔ _
    rw [hlt]
    simp [not_lex_iff]

/-- Witness for C9: the ordering operators on the concrete lists
[10, 20, 30] and [10, 25]. -/
theorem claim9_witness :
    (operatorLt exHeap exA exB (exA.size_ + exB.size_) = some true ↔
      List.Lex (· < ·) ([10, 20, 30] : List Int) [10, 25]) ∧
    (operatorLe exHeap exA exB (exA.size_ + exB.size_) = some true ↔
      (([10, 20, 30] : List Int) = [10, 25] ∨
        List.Lex (· < ·) ([10, 20, 30] : List Int) [10, 25])) ∧
    (operatorGt exHeap exA exB (exA.size_ + exB.size_) = some true ↔
      List.Lex (· < ·) ([10, 25] : List Int) [10, 20, 30]) ∧
    (operatorGe exHeap exA exB (exA.size_ + exB.size_) = some true ↔
      (([10, 25] : List Int) = [10, 20, 30] ∨
        List.Lex (· < ·) ([10, 25] : List Int) [10, 20, 30])) :=
  claim9_lexicographic exA_models exB_models

/-- C10: a default-constructed iterator references none (null), hence
compares equal (by the pointer-comparing operator==) to end() and cend()
of every list, and never compares equal to begin() or cbegin() of a
non-empty well-formed list. -/
theorem claim10_default_iterator {α : Type} :
    defaultIterator.node_ = none ∧
    (∀ L, iterEq defaultIterator (endIt L) = true) ∧
    (∀ L, iterEq defaultIterator (cend L) = true) ∧
    (∀ (h : Heap α) (L : SingleLinkedList) (as : List Nat) (v : α)
      (vst : List α) (it : BasicIterator),
      ModelsA h L as (v :: vst) → beginIt h L = some it →
      iterEq defaultIterator it = false) ∧
    (∀ (h : Heap α) (L : SingleLinkedList) (as : List Nat) (v : α)
      (vst : List α) (it : BasicIterator),
      ModelsA h L as (v :: vst) → cbegin h L = some it →
      iterEq defaultIterator it = false) := by
  refine ⟨rfl, fun L => rfl, fun L => rfl, ?_, ?_⟩
  · intro h L as v vst it hm hb
    obtain ⟨hwf, snd, hsnd, hchain, hsize⟩ := hm
    obtain ⟨a, ast, nd, has, hp, _, _, _⟩ := chainSeg_vals_cons_inv hchain
    simp only [beginIt, hsnd, Option.map_some'] at hb
    injection hb with hb2
    rw [← hb2]
    simp [iterEq, defaultIterator, hp]
  · intro h L as v vst it hm hb
    obtain ⟨hwf, snd, hsnd, hchain, hsize⟩ := hm
    obtain ⟨a, ast, nd, has, hp, _, _, _⟩ := chainSeg_vals_cons_inv hchain
    simp only [cbegin, hsnd, Option.map_some'] at hb
    injection hb with hb2
    rw [← hb2]
    simp [iterEq, defaultIterator, hp]

/-- Witness for C10: the default iterator against end() and against
cbegin() of the concrete non-empty list [10, 20, 30] (whose begin
references address 1). -/
theorem claim10_witness :
    iterEq defaultIterator (endIt exA) = true ∧
    iterEq defaultIterator (cend exA) = true ∧
    iterEq defaultIterator (⟨some 1⟩ : BasicIterator) = false :=
  ⟨(@claim10_default_iterator Int).2.1 exA,
   (@claim10_default_iterator Int).2.2.1 exA,
   (@claim10_default_iterator Int).2.2.2.2 exHeap exA [1, 2, 3]
     10 [20, 30] ⟨some 1⟩ exA_models rfl⟩

end SLL
